import Mathlib

/-!
# Verification of the mgzip parallel gzip codec (src/mgzip/multiProcGzip.py)

This file gives a shallow embedding of the core of the `mgzip` module:
the write pipeline (`MulitGzipFile.write` / `_compress_func` /
`_flush_pool` / `_write_member` / `_write_member_header` / `close`),
the index walker (`MulitGzipFile.get_index`), and the read pipeline
(`_MulitGzipReader`: `_read_gzip_header`, `_decompress_func`,
`_read_eof_crc`, `read`, plus the tiny pieces of the standard-library
superclasses it relies on: `DecompressReader.tell`, `readall`, and
`_GzipReader._read_eof` / `_init_read`).

Bytes are modelled as natural numbers (values < 256 wherever the code
writes them), byte strings as `List Nat`.  The external raw-DEFLATE
primitive (zlib) is out of scope of the repository; it is abstracted as
a `Zlib` bundle of functions, with the round-trip facts the proofs need
taken as hypotheses and discharged on concrete instances in witnesses.
The worker pool runs pure functions (`_compress_func`,
`_decompress_func` close over no mutable state), and results are always
retrieved in FIFO submission order, so a pending `apply_async` handle is
modelled by its argument tuple (writer) or by its eventual result value
(reader); draining a handle computes/returns that value.
-/

namespace Mgzip

/-- `struct.pack "<I"` / gzip `write32u`: little-endian 4-byte encoding.
(The real `struct.pack` raises for values ≥ 2^32; theorems that depend on
the field being stored exactly carry a `< 2^32` hypothesis.) -/
def le32 (n : Nat) : List Nat :=
  [n % 256, n / 256 % 256, n / 65536 % 256, n / 16777216 % 256]

/-- Little-endian decode of (up to) 4 bytes, as `struct.unpack "<I"`. -/
def decodeLE32 (bs : List Nat) : Nat :=
  bs.getD 0 0 % 256 + 256 * (bs.getD 1 0 % 256) + 65536 * (bs.getD 2 0 % 256)
    + 16777216 * (bs.getD 3 0 % 256)

/-- Little-endian decode of 2 bytes, as `struct.unpack "<H"`. -/
def decodeLE16 (bs : List Nat) : Nat :=
  bs.getD 0 0 % 256 + 256 * (bs.getD 1 0 % 256)

/-- Abstraction of the zlib raw-DEFLATE primitive (external to the
repository).  `deflate` is the total output of one compress session
(`compressobj(level, DEFLATED, -MAX_WBITS, …)`: the concatenation of all
`compress()` outputs and the final `flush()`), `inflateCap data cap`
is `decompressobj(wbits=-MAX_WBITS).decompress(data, cap)` paired with its
`unconsumed_tail` (`cap = 0` means unlimited), `crcStep` is the per-byte
step of `zlib.crc32` so that `crc32` over a list is its left fold.
`dInit`/`dStep`/`dEofQ` model the streaming decompressor object used by
the synchronous (non-indexed) read path: `dStep st data cap` returns
`(st2, output, unconsumed_tail, unused_data)`. -/
structure Zlib where
  deflate : List Nat → List Nat
  inflateCap : List Nat → Nat → List Nat × List Nat
  crcStep : Nat → Nat → Nat
  dInit : Nat
  dStep : Nat → List Nat → Nat → Nat × List Nat × List Nat × List Nat
  dEofQ : Nat → Bool

/-- `zlib.crc32(data, seed)`: a left fold of the per-byte step. -/
def crc32 (z : Zlib) (seed : Nat) (data : List Nat) : Nat :=
  data.foldl z.crcStep seed

/-! ## Write pipeline -/

/-- A compression job's argument tuple, as passed to
`pool.apply_async(self._compress_func, args=(data, pdata))`:
`data` is the block, `pdata` the prepended small-buffer content
(`[]` when the `pdata=None` default is used). -/
abbrev JobArgs := List Nat × List Nat

/-- The uncompressed bytes a job covers: prefix (`pdata`) then `data`
(the worker feeds `pdata` first, then `data`). -/
def JobArgs.payload (j : JobArgs) : List Nat := j.2 ++ j.1

/-- Result tuple of `_compress_func` with the three compressed fragments
(buffered prefix output, body output, flush output) concatenated:
only their concatenation and total length are ever used
(`_write_member` writes the three back to back and sums their lengths). -/
structure CData where
  cbytes : List Nat
  crc : Nat
  size : Nat
deriving DecidableEq, Repr

/-- `_compress_func(data, pdata)`.  The compress object is fed `pdata`
then `data` then flushed, which is one deflate session over
`pdata ++ data`; `crc = zlib.crc32(data, zlib.crc32(pdata))`, i.e. the
fold over `pdata ++ data`; `size = pdata.nbytes + data.nbytes`. -/
def compressFunc (z : Zlib) (j : JobArgs) : CData :=
  { cbytes := z.deflate (j.2 ++ j.1)
    crc := crc32 z (crc32 z 0 j.2) j.1
    size := j.2.length + j.1.length }

/-- MEMBER_SIZE as computed in `_write_member_header`:
`20 + len(fname) + 1 + compressed_size + 8`, minus 1 when `fname` is empty. -/
def memberSizeOf (fnameLen csize : Nat) : Nat :=
  if fnameLen = 0 then 28 + csize else 29 + fnameLen + csize

/-- The bytes `_write_member_header(compressed_size, raw_size)` puts on the
sink: magic, method 8, flags (FEXTRA=4, plus FNAME=8 when a filename is
embedded), mtime, XFL=2, OS=255, XLEN=8, subfield `IG`, subfield length 4,
MEMBER_SIZE, then the NUL-terminated filename when present.
`fname` is the already-processed name (Latin-1 bytes, basename, `.gz`
stripped). -/
def memberHeaderBytes (fname : List Nat) (mtime csize : Nat) : List Nat :=
  [31, 139] ++ [8] ++ [if fname.length = 0 then 4 else 12] ++ le32 mtime
    ++ [2, 255] ++ [8, 0] ++ [73, 71] ++ [4, 0]
    ++ le32 (memberSizeOf fname.length csize)
    ++ (if fname.length = 0 then [] else fname ++ [0])

/-- The bytes `_write_member(cdata)` puts on the sink: header, the three
compressed fragments, CRC32, and `size & 0xffffffff` (ISIZE). -/
def memberBytesC (fname : List Nat) (mtime : Nat) (c : CData) : List Nat :=
  memberHeaderBytes fname mtime c.cbytes.length ++ c.cbytes
    ++ le32 c.crc ++ le32 (c.size % 4294967296)

/-- Writer configuration: codec, embedded filename (post-processing),
mtime, `blocksize`, worker count `thread`. -/
structure WCtx where
  z : Zlib
  fname : List Nat
  mtime : Nat
  blocksize : Nat
  thread : Nat

/-- Member bytes for one drained job. -/
def memberBytesJ (ctx : WCtx) (j : JobArgs) : List Nat :=
  memberBytesC ctx.fname ctx.mtime (compressFunc ctx.z j)

/-- Writer state: small buffer, FIFO of pending jobs (`pool_result`),
and the bytes already written to the sink (`fileobj`). -/
structure WState where
  smallBuf : List Nat
  poolResult : List JobArgs
  out : List Nat
deriving DecidableEq, Repr

/-- The fresh writer state (empty `small_buf`, empty `pool_result`). -/
def initW : WState := ⟨[], [], []⟩

/-- Observable actions of `close()`, used to state its ordering. -/
inductive Event where
  | submitJob : List Nat → Event
  | emitMember : List Nat → Event
  | releaseSink : Event
  | releasePool : Event
deriving DecidableEq, Repr

/-- The body of the `_flush_pool` drain loop: pop the oldest handle,
get its result, write it as a member; repeated `n` times.  Also returns
the corresponding `emitMember` events (each tagged with the job's
uncompressed payload). -/
def drainEv (ctx : WCtx) : Nat → WState → WState × List Event
  | 0, st => (st, [])
  | n + 1, st =>
    match st.poolResult with
    | [] => (st, [])
    | j :: rest =>
      let st1 : WState :=
        { st with poolResult := rest, out := st.out ++ memberBytesJ ctx j }
      let r := drainEv ctx n st1
      (r.1, Event.emitMember (JobArgs.payload j) :: r.2)

/-- `_flush_pool(force)`: return unless the pending count exceeds
`thread` (or `force`); otherwise drain down to `thread` pending jobs
(all of them when `force`). -/
def flushPool (ctx : WCtx) (force : Bool) (st : WState) : WState :=
  if st.poolResult.length ≤ ctx.thread ∧ force = false then st
  else
    (drainEv ctx
      (if force then st.poolResult.length else st.poolResult.length - ctx.thread)
      st).1

/-- `_compress_async(data, pdata)`: append the job to `pool_result`. -/
def compressAsync (st : WState) (data pdata : List Nat) : WState :=
  { st with poolResult := st.poolResult ++ [(data, pdata)] }

/-- `_compress_block_async(data)`: prefix the small buffer when non-empty
and clear it. -/
def compressBlockAsync (st : WState) (data : List Nat) : WState :=
  if st.smallBuf.length ≠ 0 then
    { compressAsync st data st.smallBuf with smallBuf := [] }
  else compressAsync st data []

/-- The `for st in range(0, length, self.blocksize)` loop of `write`:
submit each `blocksize` slice (`_compress_block_async`, so the first one
may absorb the small buffer) and do a non-forced drain after each.
`fuel ≥ data.length` makes the recursion reproduce the loop exactly,
since each iteration consumes `blocksize ≥ 1` bytes. -/
def writeBigLoop (ctx : WCtx) : Nat → WState → List Nat → WState
  | 0, st, _ => st
  | fuel + 1, st, d =>
    if d.length = 0 then st
    else
      writeBigLoop ctx fuel
        (flushPool ctx false (compressBlockAsync st (d.take ctx.blocksize)))
        (d.drop ctx.blocksize)

/-- `MulitGzipFile.write(data)` (write mode, open stream). -/
def mgWrite (ctx : WCtx) (st : WState) (data : List Nat) : WState :=
  if data.length = 0 then st
  else
    let st1 :=
      if ctx.blocksize ≤ data.length then
        if data.length < 2 * ctx.blocksize then compressBlockAsync st data
        else writeBigLoop ctx data.length st data
      else
        let sb := st.smallBuf ++ data
        if ctx.blocksize ≤ sb.length then
          { st with smallBuf := [], poolResult := st.poolResult ++ [(sb, [])] }
        else { st with smallBuf := sb }
    flushPool ctx false st1

/-- `close()` on a write-mode stream, with its event trace: submit the
small buffer as a final job when non-empty, `_flush_pool(force=True)`,
then (in the `finally` block) drop `fileobj` and close `myfileobj` —
the sink release.  Nothing in `close` touches `self.pool`. -/
def closeEv (ctx : WCtx) (st : WState) : WState × List Event :=
  let s :=
    if st.smallBuf.length ≠ 0 then
      ({ st with smallBuf := [], poolResult := st.poolResult ++ [(st.smallBuf, [])] },
        [Event.submitJob st.smallBuf])
    else (st, ([] : List Event))
  let d := drainEv ctx s.1.poolResult.length s.1
  (d.1, s.2 ++ d.2 ++ [Event.releaseSink])

/-- `close()`: resulting state only. -/
def mgClose (ctx : WCtx) (st : WState) : WState := (closeEv ctx st).1

/-- A sequence of `write` calls. -/
def writeSeq (ctx : WCtx) (st : WState) (ds : List (List Nat)) : WState :=
  ds.foldl (mgWrite ctx) st

/-- `mgzip.compress(data, compresslevel, thread, blocksize)`: write `data`
into a fresh writer over a `BytesIO` sink (so the embedded filename is
empty) in one `write` call, `close`, return the sink's bytes.  The
compression level only parametrizes `deflate` and is absorbed by `z`. -/
def mgCompress (z : Zlib) (blocksize thread mtime : Nat) (data : List Nat) : List Nat :=
  (mgClose ⟨z, [], mtime, blocksize, thread⟩
    (mgWrite ⟨z, [], mtime, blocksize, thread⟩ initW data)).out

/-! ## Index engine (`get_index`) -/

/-- One index entry `[offset, member_size, isize]`. -/
structure IEntry where
  off : Nat
  msize : Nat
  isize : Nat
deriving DecidableEq, Repr

/-- `file.seek(pos); file.read(n)` on an on-disk byte string. -/
def readAt (file : List Nat) (pos n : Nat) : List Nat := (file.drop pos).take n

/-- The `while True` loop of `get_index`, walking a file from offset 0.
Each iteration seeks 12 bytes past the current member start, reads the
8-byte extra field (break on empty read at EOF; `struct.unpack` and an
unexpected subfield id are errors, `none`), computes the next entry's
offset cumulatively, and fetches ISIZE from the member's last 4 bytes.
The source loop has no fuel; `none` on exhausted fuel (the loop would
run forever on a member with `msize = 0` — files written by this engine
always have `msize ≥ 28`). -/
def getIndexLoop (file : List Nat) : Nat → List IEntry → Option (List IEntry)
  | 0, _ => none
  | fuel + 1, acc =>
    let pos := match acc.getLast? with
      | none => 0
      | some e => e.off + e.msize
    let ef := readAt file (pos + 12) 8
    if ef.length = 0 then some acc
    else if ef.length < 8 then none
    else if ef.take 2 ≠ [73, 71] then none
    else
      let msize := decodeLE32 (ef.drop 4)
      let isb := readAt file (pos + msize - 4) 4
      if isb.length < 4 then none
      else getIndexLoop file fuel (acc ++ [⟨pos, msize, decodeLE32 isb⟩])

/-- `get_index()`: remember the current read position, walk from 0,
seek back to the remembered position.  Returns the entries (or `none`
on a malformed file) together with the restored file position. -/
def getIndexAt (file : List Nat) (rawPos fuel : Nat) : Option (List IEntry) × Nat :=
  (getIndexLoop file fuel [], rawPos)

/-! ## Read pipeline (`_MulitGzipReader`) -/

/-- Errors raised on the read path.  `valueErrorFormat` is Python's
`ValueError: Unknown format code 's' for object of type 'int'`. -/
inductive RErr where
  | badMagic
  | unknownMethod
  | truncated
  | structError
  | sizeMismatch
  | crcMismatch
  | valueErrorFormat
  | badCrc
  | badISize
  | fuelOut
deriving DecidableEq, Repr

/-- Result tuple of `_decompress_func`:
`(body_bytes, rsize, crc, rcrc)`. -/
structure DResult where
  body : List Nat
  rsize : Nat
  crc : Nat
  rcrc : Nat
deriving DecidableEq, Repr

/-- Reader state: remaining source bytes (`_fp`, with `prepend` modelled
by consing back), the `_MulitGzipReader` fields, and the
`DecompressReader`/`_GzipReader` fields the code uses (`_pos`, `_size`,
`_new_member`, `_crc`, `_stream_size`, and the current streaming
decompressor object `dState`/`dEof`). -/
structure RState where
  inp : List Nat
  memberidx : List Nat
  isIG : Bool
  headerSize : Nat
  thread : Nat
  readPool : List DResult
  blockBuff : List Nat
  blockBuffPos : Nat
  blockBuffSize : Nat
  isEof : Bool
  newMember : Bool
  pos : Nat
  sizeKnown : Int
  crc : Nat
  streamSize : Nat
  dState : Nat
  dEof : Bool
deriving DecidableEq, Repr

/-- `self._fp.read(n)`: up to `n` bytes. -/
def fpRead (st : RState) (n : Nat) : List Nat × RState :=
  (st.inp.take n, { st with inp := st.inp.drop n })

/-- `self._read_exact(n)`: exactly `n` bytes or `EOFError`
("Compressed file ended before the end-of-stream marker was reached"). -/
def readExact (st : RState) (n : Nat) : Except RErr (List Nat × RState) :=
  if st.inp.length < n then .error .truncated
  else .ok (st.inp.take n, { st with inp := st.inp.drop n })

/-- The FNAME/FCOMMENT skip loop of `_read_gzip_header`: read one byte
at a time, bumping `_header_size` each iteration (including the final
one that sees the NUL or EOF), until a NUL byte or EOF.  Returns the
remaining input and the number of `_header_size` increments. -/
def skipZTL : List Nat → Nat → List Nat × Nat
  | [], k => ([], k + 1)
  | b :: rest, k => if b = 0 then (rest, k + 1) else skipZTL rest (k + 1)

/-- `_read_gzip_header`: `False` on clean EOF at the magic, errors on bad
magic / short reads / method ≠ 8.  With FEXTRA set it reads XLEN and the
2-byte subfield id; for id `IG` it reads the rest of the subfield and
records MEMBER_SIZE (fixing `_header_size = 20`); for any other id it
only clears `_is_IG_member` — the remaining `XLEN - 2` extra-field bytes
are left in the stream.  Then the FNAME/FCOMMENT/FHCRC fields. -/
def readGzipHeader (st0 : RState) : Except RErr (Bool × RState) := do
  let m := fpRead st0 2
  if m.1 = [] then return (false, m.2)
  if m.1 ≠ [31, 139] then throw .badMagic
  let h ← readExact m.2 8
  let method := h.1.getD 0 0
  let flag := h.1.getD 1 0
  if method ≠ 8 then throw .unknownMethod
  let st1 ←
    if flag &&& 4 ≠ 0 then do
      let e ← readExact h.2 4
      let extraLen := decodeLE16 (e.1.take 2)
      if e.1.drop 2 = [73, 71] then do
        let s ← readExact e.2 (extraLen - 2)
        if s.1.length ≠ 6 then throw .structError
        pure { s.2 with memberidx := s.2.memberidx ++ [decodeLE32 (s.1.drop 2)],
                        isIG := true, headerSize := 20 }
      else pure { e.2 with isIG := false }
    else pure h.2
  let st2 ←
    if flag &&& 8 ≠ 0 then
      let r := skipZTL st1.inp 0
      pure { st1 with inp := r.1, headerSize := st1.headerSize + r.2 }
    else pure st1
  let st3 ←
    if flag &&& 16 ≠ 0 then
      let r := skipZTL st2.inp 0
      pure { st2 with inp := r.1, headerSize := st2.headerSize + r.2 }
    else pure st2
  let st4 ←
    if flag &&& 2 ≠ 0 then do
      let r ← readExact st3 2
      pure { r.2 with headerSize := r.2.headerSize + 2 }
    else pure st3
  return (true, st4)

/-- `_read_eof_crc`: read CRC32 and ISIZE without checking, then consume
any zero padding, pushing the first non-zero byte back. -/
def readEofCrc (st : RState) : Except RErr (Nat × Nat × RState) := do
  let t ← readExact st 8
  return (decodeLE32 (t.1.take 4), decodeLE32 (t.1.drop 4),
    { t.2 with inp := t.2.inp.dropWhile (fun b => b = 0) })

/-- The inherited `_GzipReader._read_eof` used by the synchronous
streaming path: read the trailer, check CRC against `_crc` and ISIZE
against `_stream_size & 0xffffffff`, then consume zero padding. -/
def readEofCheck (st : RState) : Except RErr RState := do
  let t ← readExact st 8
  if decodeLE32 (t.1.take 4) ≠ st.crc then throw .badCrc
  if decodeLE32 (t.1.drop 4) ≠ st.streamSize % 4294967296 then throw .badISize
  return { t.2 with inp := t.2.inp.dropWhile (fun b => b = 0) }

/-- `_decompress_func(data, rcrc, rsize)`: fresh raw decompressor,
decompress with output cap `rsize`, CRC the output, append any
unconsumed tail to the output (also folding it into the CRC). -/
def decompressFunc (z : Zlib) (data : List Nat) (rcrc rsize : Nat) : DResult :=
  let r := z.inflateCap data rsize
  let c := crc32 z 0 r.1
  if r.2 ≠ [] then ⟨r.1 ++ r.2, rsize, crc32 z c r.2, rcrc⟩
  else ⟨r.1, rsize, c, rcrc⟩

/-- Python `"…{:s}…".format v` where `v` is an `int`: the `s`
presentation code is only valid for `str`, so the format call itself
raises `ValueError` (before any surrounding exception is constructed). -/
def pyFormatS (_v : Nat) : Except RErr String := throw .valueErrorFormat

/-- The validation performed on a drained decompression result in
`read` (lines 515–522): length against `rsize` (OSError
"Incorrect length of data produced"), then CRC — whose error message
formats the two ints with `\x7b:s\x7d`, so the format call raises first;
the `OSError("CRC check failed …")` (`crcMismatch`) is never reached. -/
def checkDrained (r : DResult) : Except RErr Unit := do
  if r.body.length ≠ r.rsize then throw .sizeMismatch
  if r.crc ≠ r.rcrc then do
    let _ ← pyFormatS r.rcrc
    let _ ← pyFormatS r.crc
    throw .crcMismatch
  return ()

/-- `sys.maxsize` on a 64-bit build, the read size used by
`DecompressReader.readall`. -/
def sysMaxsize : Nat := 9223372036854775807

/-- `io.DEFAULT_BUFFER_SIZE`. -/
def defaultBufferSize : Nat := 8192

/-- The `while True` loop of `_MulitGzipReader.read(size)` for
`size ≥ 1`, with explicit fuel (the loop re-enters via `continue` after
dispatching an indexed member, and via falling off the end of the
streaming step).  Returns the bytes handed to the caller and the new
state. -/
def readLoop (z : Zlib) : Nat → RState → Nat → Except RErr (List Nat × RState)
  | 0, _, _ => throw .fuelOut
  | fuel + 1, st0, size => do
    let stA ←
      if st0.dEof then do
        let st1 ← readEofCheck st0
        pure { st1 with newMember := true, dState := z.dInit, dEof := z.dEofQ z.dInit }
      else pure st0
    let disp ←
      if stA.newMember = true ∧ stA.thread ≠ 0 then do
        let stB := { stA with crc := 0, streamSize := 0 }
        let h ← readGzipHeader stB
        if h.1 = false then
          pure (Sum.inl { h.2 with sizeKnown := (h.2.pos : Int), isEof := true })
        else
          let stC := { h.2 with newMember := false }
          if stC.isIG then do
            let cprSize := stC.memberidx.getLastD 0 - stC.headerSize - 8
            let d := fpRead stC cprSize
            let t ← readEofCrc d.2
            pure (Sum.inr { t.2.2 with
              readPool := t.2.2.readPool ++ [decompressFunc z d.1 t.1 t.2.1],
              thread := t.2.2.thread - 1, newMember := true })
          else pure (Sum.inl stC)
      else pure (Sum.inl stA)
    match disp with
    | Sum.inr st => readLoop z fuel st size
    | Sum.inl st =>
      if st.blockBuffPos + size ≤ st.blockBuffSize then
        .ok ((st.blockBuff.drop st.blockBuffPos).take size,
          { st with blockBuffPos := st.blockBuffPos + size })
      else if st.readPool ≠ [] then do
        let r := st.readPool.headD ⟨[], 0, 0, 0⟩
        let st := { st with readPool := st.readPool.tail, thread := st.thread + 1 }
        let _ ← checkDrained r
        let newBuff := st.blockBuff.drop st.blockBuffPos ++ r.body
        .ok (newBuff.take size,
          { st with blockBuff := newBuff, blockBuffSize := newBuff.length,
                    blockBuffPos := min size newBuff.length })
      else if st.blockBuffPos ≠ st.blockBuffSize then
        .ok (st.blockBuff.drop st.blockBuffPos,
          { st with blockBuffPos := st.blockBuffSize })
      else if st.isEof then .ok ([], st)
      else
        let b := fpRead st defaultBufferSize
        let r := z.dStep b.2.dState b.1 size
        let stD := { b.2 with dState := r.1, dEof := z.dEofQ r.1 }
        let uncompress := r.2.1
        let stE :=
          if r.2.2.1 ≠ [] then { stD with inp := r.2.2.1 ++ stD.inp }
          else if r.2.2.2 ≠ [] then { stD with inp := r.2.2.2 ++ stD.inp }
          else stD
        if uncompress ≠ [] then
          .ok (uncompress,
            { stE with crc := crc32 z stE.crc uncompress,
                       streamSize := stE.streamSize + uncompress.length,
                       pos := stE.pos + uncompress.length })
        else if b.1 = [] then throw .truncated
        else readLoop z fuel stE size

/-- `DecompressReader.readall` (inherited): call `read(sys.maxsize)`
until it returns empty, concatenating the chunks. -/
def readAllGo (z : Zlib) (inner : Nat) : Nat → RState → List Nat →
    Except RErr (List Nat × RState)
  | 0, _, _ => throw .fuelOut
  | fuel + 1, st, acc => do
    let r ← readLoop z inner st sysMaxsize
    if r.1 = [] then .ok (acc, r.2)
    else readAllGo z inner fuel r.2 (acc ++ r.1)

/-- The raw reader's `read(size)` entry: `readall` on negative sizes,
immediate empty result on `size = 0`, the main loop otherwise. -/
def mgRead (z : Zlib) (fuel : Nat) (st : RState) (size : Int) :
    Except RErr (List Nat × RState) :=
  if size < 0 then readAllGo z fuel fuel st []
  else if size = 0 then .ok ([], st)
  else readLoop z fuel st size.toNat

/-- Fresh `_MulitGzipReader` state over a source. -/
def rstate0 (z : Zlib) (thread : Nat) (file : List Nat) : RState :=
  { inp := file, memberidx := [], isIG := false, headerSize := 0,
    thread := thread, readPool := [], blockBuff := [], blockBuffPos := 0,
    blockBuffSize := 0, isEof := false, newMember := true, pos := 0,
    sizeKnown := -1, crc := 0, streamSize := 0, dState := z.dInit,
    dEof := z.dEofQ z.dInit }

/-- The inherited `DecompressReader.tell`: the `_pos` counter. -/
def tellR (st : RState) : Nat := st.pos

/-- `mgzip.decompress(data, thread, blocksize)`: read everything from a
fresh reader over `data` (`GzipFile.read()` goes through a
`BufferedReader` to the raw reader's `readall`, which concatenates the
raw `read(sys.maxsize)` chunks). -/
def mgDecompress (z : Zlib) (thread fuel : Nat) (file : List Nat) :
    Except RErr (List Nat) :=
  (readAllGo z fuel fuel (rstate0 z thread file) []).map (fun r => r.1)

/-! ## Derived descriptions of the pipeline (for specification and proof) -/

/-- The member a single job's payload becomes on the sink. -/
def memberBytesP (z : Zlib) (fname : List Nat) (mtime : Nat) (p : List Nat) : List Nat :=
  memberBytesC fname mtime (compressFunc z (p, []))

/-- The `blocksize` slices `data[st : st+blocksize]` taken by the
multi-block branch of `write`, in order. -/
def chunksGo (B : Nat) : Nat → List Nat → List (List Nat)
  | 0, _ => []
  | fuel + 1, d =>
    if d.length = 0 then [] else d.take B :: chunksGo B fuel (d.drop B)

/-- The job pairs the multi-block loop submits for the given chunks: the
first chunk absorbs the incoming small buffer, later chunks find it
empty (a `(data, [])` pair coincides with `(data, sb)` when `sb = []`). -/
def chunkJobs (sb : List Nat) : List (List Nat) → List JobArgs
  | [] => []
  | c :: cs => (c, sb) :: cs.map (fun x => (x, []))

/-- The jobs one `write(data)` call submits (as `(data, pdata)` argument
pairs, in submission order) and the small-buffer contents it leaves
behind, as functions of the incoming small buffer. -/
def jobsOfWrite (B : Nat) (sb data : List Nat) : List JobArgs × List Nat :=
  if data.length = 0 then ([], sb)
  else if B ≤ data.length then
    if data.length < 2 * B then ([(data, sb)], [])
    else (chunkJobs sb (chunksGo B data.length data), [])
  else
    let sb2 := sb ++ data
    if B ≤ sb2.length then ([(sb2, [])], []) else ([], sb2)

/-- Accumulate `jobsOfWrite` over a sequence of `write` calls. -/
def jobsAccum (B : Nat) : List JobArgs × List Nat → List (List Nat) → List JobArgs × List Nat
  | acc, [] => acc
  | acc, d :: ds =>
    let r := jobsOfWrite B acc.2 d
    jobsAccum B (acc.1 ++ r.1, r.2) ds

/-- The uncompressed payloads of the members a write sequence followed by
`close` emits, in emission order. -/
def closedPayloads (B : Nat) (ds : List (List Nat)) : List (List Nat) :=
  let r := jobsAccum B ([], []) ds
  r.1.map JobArgs.payload ++ (if r.2.length ≠ 0 then [r.2] else [])

/-- The index entries `get_index` recovers from the members of the given
payloads laid out consecutively from `off`. -/
def entriesWalk (z : Zlib) (fname : List Nat) (mtime : Nat) :
    Nat → List (List Nat) → List IEntry
  | _, [] => []
  | off, p :: ps =>
    let ms := memberSizeOf fname.length (z.deflate p).length
    ⟨off, ms, p.length % 4294967296⟩ :: entriesWalk z fname mtime (off + ms) ps

/-! ## Concrete codec instances (for witnesses and counterexamples) -/

/-- A trivially invertible stand-in for the DEFLATE primitive: `deflate`
is the identity, `inflateCap` honours the output cap (`0` = unlimited)
with the uncompressed remainder as unconsumed tail, and the CRC step is
a mod-2^32 byte sum. -/
def idZ : Zlib :=
  { deflate := fun d => d
    inflateCap := fun d c => if c = 0 then (d, []) else (d.take c, d.drop c)
    crcStep := fun s b => (s + b) % 4294967296
    dInit := 0
    dStep := fun s _ _ => (s, [], [], [])
    dEofQ := fun _ => false }

/-- A block of 2^32 zero bytes (one byte past what the 32-bit ISIZE
field can record). -/
def bigZeros : List Nat := List.replicate 4294967296 0

/-- A stand-in consistent with zlib's behaviour on four gibibytes of
zero bytes: the compressed form is a single placeholder byte, a
cap-0 (unlimited) `decompress` of it yields the 2^32 zero bytes with no
unconsumed tail, and the CRC folds to its seed. -/
def ceZ : Zlib :=
  { deflate := fun _ => [0]
    inflateCap := fun _ c => if c = 0 then (bigZeros, []) else ([], [])
    crcStep := fun s _ => s
    dInit := 0
    dStep := fun s _ _ => (s, [], [], [])
    dEofQ := fun _ => false }

deriving instance DecidableEq for Except

/-! ## Layout lemmas -/

theorem le32_length (n : Nat) : (le32 n).length = 4 := rfl

theorem decodeLE32_le32 (n : Nat) : decodeLE32 (le32 n) = n % 4294967296 := by
  simp [decodeLE32, le32]
  omega

theorem memberBytesC_length (fname : List Nat) (mtime : Nat) (c : CData) :
    (memberBytesC fname mtime c).length
      = memberSizeOf fname.length c.cbytes.length := by
  by_cases hf : fname.length = 0 <;>
    simp [memberBytesC, memberHeaderBytes, le32, memberSizeOf, hf] <;> omega

theorem memberBytesC_split (fname : List Nat) (mtime : Nat) (c : CData) :
    memberBytesC fname mtime c
      = ([31, 139] ++ [8] ++ [if fname.length = 0 then 4 else 12] ++ le32 mtime
          ++ [2, 255] ++ [8, 0] ++ [73, 71] ++ [4, 0])
        ++ (le32 (memberSizeOf fname.length c.cbytes.length)
          ++ ((if fname.length = 0 then [] else fname ++ [0]) ++ (c.cbytes
            ++ (le32 c.crc ++ le32 (c.size % 4294967296))))) := by
  simp [memberBytesC, memberHeaderBytes]

/-! ## Claim C3: MEMBER_SIZE field vs. actual member length -/

/-- C3: for every member written by the engine, the u32 little-endian
MEMBER_SIZE stored at offsets 16–19 of the member (inside the `'I','G'`
extra-field subfield), computed as
`20 + (len(fname)+1 if fname else 0) + len(compressed_body) + 8`,
equals the number of bytes the member occupies on the sink from the
leading `1F 8B` magic through the 4-byte ISIZE trailer inclusive. -/
theorem c3_member_size_matches_layout (fname : List Nat) (mtime : Nat) (c : CData)
    (h : memberSizeOf fname.length c.cbytes.length < 4294967296) :
    decodeLE32 (((memberBytesC fname mtime c).drop 16).take 4)
      = (memberBytesC fname mtime c).length := by
  have hpre : (([31, 139] ++ [8] ++ [if fname.length = 0 then 4 else 12]
      ++ le32 mtime ++ [2, 255] ++ [8, 0] ++ [73, 71] ++ [4, 0]) : List Nat).length
        = 16 := by simp [le32]
  have hm : (le32 (memberSizeOf fname.length c.cbytes.length)).length = 4 := by
    simp [le32]
  rw [memberBytesC_split fname mtime c, List.drop_left' hpre, List.take_left' hm,
    decodeLE32_le32, Nat.mod_eq_of_lt h, ← memberBytesC_split, memberBytesC_length]

/-- Witness for C3 at a concrete member: filename `ab`, two compressed
bytes. -/
theorem c3_member_size_matches_layout_witness :
    memberSizeOf ([97, 98] : List Nat).length ([7, 7] : List Nat).length < 4294967296 ∧
    decodeLE32 (((memberBytesC [97, 98] 5 ⟨[7, 7], 9, 2⟩).drop 16).take 4)
      = (memberBytesC [97, 98] 5 ⟨[7, 7], 9, 2⟩).length :=
  ⟨by decide, c3_member_size_matches_layout [97, 98] 5 ⟨[7, 7], 9, 2⟩ (by decide)⟩

/-! ## Claim C4: non-`IG` extra-field handling -/

/-- C4 (refuting evaluation): on a member header with FEXTRA set,
`XLEN = 8` and subfield id `'A','B'`, the header parser marks the member
non-indexable but leaves the six remaining extra-field bytes
`[1, 2, 3, 4, 5, 6]` in the stream (the following `[9, 9]` stand for the
DEFLATE body): the code consumes only the 2 subfield-id bytes of the
extra-field instead of all `XLEN` bytes, so the synchronous decode that
follows starts in the middle of the extra-field. -/
theorem c4_extra_field_not_discarded :
    readGzipHeader (rstate0 idZ 1
        [31, 139, 8, 4, 0, 0, 0, 0, 2, 255, 8, 0, 65, 66, 1, 2, 3, 4, 5, 6, 9, 9])
      = .ok (true, { rstate0 idZ 1
        [31, 139, 8, 4, 0, 0, 0, 0, 2, 255, 8, 0, 65, 66, 1, 2, 3, 4, 5, 6, 9, 9] with
          inp := [1, 2, 3, 4, 5, 6, 9, 9], isIG := false }) := by decide

/-! ## Claim C5: validation of drained decompression results -/

/-- C5 (evaluation of the drain-time validation): a length mismatch
raises the size-mismatch OSError; matching length and CRC append
cleanly; but on a CRC mismatch the code raises `ValueError` from
formatting the two ints with the `s` presentation code — the
`OSError("CRC check failed …")` is never constructed. -/
theorem c5_drain_validation_behaviour :
    checkDrained ⟨[5], 2, 7, 9⟩ = .error .sizeMismatch ∧
    checkDrained ⟨[5], 1, 7, 9⟩ = .error .valueErrorFormat ∧
    checkDrained ⟨[5], 1, 7, 7⟩ = .ok () := by decide

/-! ## Claim C9: `tell()` after parallel-path reads -/

/-- C9 (refuting evaluation): reading the 3-byte member `[1, 2, 3]`
through the parallel (indexed) path delivers the 3 bytes, but the
`_pos` counter returned by the inherited `tell()` stays `0`: the
parallel path never updates `_pos`. -/
theorem c9_tell_misses_parallel_bytes :
    (readLoop idZ 4 (rstate0 idZ 1 (memberBytesP idZ [] 0 [1, 2, 3])) 3).map
      (fun r => (r.1, tellR r.2)) = .ok ([1, 2, 3], 0) := by decide

/-! ## Claim C10: `read(0)` -/

/-- C10: `read(0)` returns the empty byte string at once and leaves the
whole reader state (source, pools, buffer, cursor, counters) unchanged. -/
theorem c10_read_zero_noop (z : Zlib) (fuel : Nat) (st : RState) :
    mgRead z fuel st 0 = .ok ([], st) := by
  simp [mgRead]

/-! ## Claim C6: job size versus `blocksize` (counterexample part) -/

/-- C6 (refuting evaluation): with `blocksize = 3`, writing 2 bytes and
then 2 more accumulates 4 bytes in the small buffer before it reaches
the threshold, and the single job then submitted carries 4 > 3
uncompressed bytes. -/
theorem c6_counterexample :
    ¬ ∀ j ∈ (mgWrite ⟨idZ, [], 0, 3, 1⟩
        (mgWrite ⟨idZ, [], 0, 3, 1⟩ initW [0, 1]) [2, 3]).poolResult,
      (JobArgs.payload j).length ≤ 3 := by decide

/-! ## Claim C7: the `close()` sequence -/

/-- C7 (evaluation of the close sequence): on a writer with small buffer
`[1]` and pending jobs `[2]`, `[3]`, `close()` submits the buffer as a
final job, drains and emits the three members in FIFO submission order,
then releases the sink — and performs no worker-pool release at all
(the repository's own `test_pool_close` expects the pool closed). -/
theorem c7_close_sequence_no_pool_release :
    (closeEv ⟨idZ, [], 0, 3, 1⟩ ⟨[1], [([2], []), ([3], [])], []⟩).2
        = [.submitJob [1], .emitMember [2], .emitMember [3], .emitMember [1],
           .releaseSink] ∧
      Event.releasePool ∉ (closeEv ⟨idZ, [], 0, 3, 1⟩ ⟨[1], [([2], []), ([3], [])], []⟩).2 := by
  decide

/-- MEMBER_SIZE of the member a payload becomes. -/
def mszOf (z : Zlib) (fname p : List Nat) : Nat :=
  memberSizeOf fname.length (z.deflate p).length

/-! ## Reader evaluation lemmas -/

theorem readExact_append (st : RState) (xs r : List Nat) (n : Nat)
    (h : st.inp = xs ++ r) (hn : xs.length = n) :
    readExact st n = .ok (xs, { st with inp := r }) := by
  rw [readExact, if_neg (by rw [h, List.length_append]; omega), h, ← hn,
    List.take_left, List.drop_left]

theorem fpRead_append (st : RState) (xs r : List Nat) (n : Nat)
    (h : st.inp = xs ++ r) (hn : xs.length = n) :
    fpRead st n = (xs, { st with inp := r }) := by
  rw [fpRead, h, ← hn, List.take_left, List.drop_left]

/-- The byte layout of a member written with an empty filename: header
(with MEMBER_SIZE field `msz`), deflate body `cb`, trailer CRC `c` and
ISIZE `i`. -/
def rawMember (mtime msz : Nat) (cb : List Nat) (c i : Nat) : List Nat :=
  [31, 139] ++ [8] ++ [4] ++ le32 mtime ++ [2, 255] ++ [8, 0] ++ [73, 71]
    ++ [4, 0] ++ le32 msz ++ cb ++ le32 c ++ le32 i

theorem memberBytesP_rawMember (z : Zlib) (mtime : Nat) (p : List Nat) :
    memberBytesP z [] mtime p
      = rawMember mtime (mszOf z [] p) (z.deflate p)
          (crc32 z 0 p) (p.length % 4294967296) := by
  simp [memberBytesP, memberBytesC, memberHeaderBytes, rawMember, compressFunc,
    mszOf, crc32]

/-- `_read_gzip_header` over a member in the engine's layout: parses the
20-byte header, records MEMBER_SIZE, marks the member indexable and
leaves the body and trailer in the stream. -/
theorem readGzipHeader_rawMember (st : RState) (mtime msz : Nat) (cb : List Nat)
    (c i : Nat) (rest : List Nat)
    (hinp : st.inp = rawMember mtime msz cb c i ++ rest)
    (hmsz : msz < 4294967296) :
    readGzipHeader st = .ok (true,
      { st with
          inp := cb ++ (le32 c ++ (le32 i ++ rest)),
          memberidx := st.memberidx ++ [msz],
          isIG := true,
          headerSize := 20 }) := by
  have hg : st.inp = [31, 139] ++ (([8, 4] ++ (le32 mtime ++ [2, 255]))
      ++ ([8, 0, 73, 71] ++ (([4, 0] ++ le32 msz)
        ++ (cb ++ (le32 c ++ (le32 i ++ rest)))))) := by
    rw [hinp, rawMember]
    simp [List.append_assoc]
  have e1 := fpRead_append st [31, 139] _ 2 hg rfl
  have e2 := readExact_append { st with inp := ([8, 4] ++ (le32 mtime ++ [2, 255]))
      ++ ([8, 0, 73, 71] ++ (([4, 0] ++ le32 msz)
        ++ (cb ++ (le32 c ++ (le32 i ++ rest))))) }
    ([8, 4] ++ (le32 mtime ++ [2, 255])) _ 8 rfl (by simp [le32])
  have e3 := readExact_append { st with inp := [8, 0, 73, 71]
      ++ (([4, 0] ++ le32 msz) ++ (cb ++ (le32 c ++ (le32 i ++ rest)))) }
    [8, 0, 73, 71] _ 4 rfl rfl
  have e4 := readExact_append { st with inp := ([4, 0] ++ le32 msz)
      ++ (cb ++ (le32 c ++ (le32 i ++ rest))) }
    ([4, 0] ++ le32 msz) _ 6 rfl (by simp [le32])
  simp only [List.cons_append, List.nil_append] at e1 e2 e3 e4
  simp only [readGzipHeader, e1, Bind.bind, Except.bind]
  simp only [List.cons_append, List.nil_append, le32] at e2 e3 e4 ⊢
  have hand4 : (4 : Nat) &&& 4 = 4 := rfl
  have hand8 : (4 : Nat) &&& 8 = 0 := rfl
  have hand16 : (4 : Nat) &&& 16 = 0 := rfl
  have hand2 : (4 : Nat) &&& 2 = 0 := rfl
  simp [e2, e3, e4, decodeLE16, decodeLE32, hand4, hand8, hand16, hand2,
    Pure.pure, Except.pure, Nat.mod_eq_of_lt hmsz]
  omega

/-- `_read_eof_crc` on a stream positioned at a member trailer. -/
theorem readEofCrc_append (st : RState) (c i : Nat) (rest : List Nat)
    (hinp : st.inp = le32 c ++ (le32 i ++ rest))
    (hrest : rest.dropWhile (fun b => b = 0) = rest) :
    readEofCrc st
      = .ok (c % 4294967296, i % 4294967296, { st with inp := rest }) := by
  have e1 := readExact_append st (le32 c ++ le32 i) rest 8
    (by rw [hinp, List.append_assoc]) (by simp [le32])
  simp only [le32, List.cons_append, List.nil_append] at e1
  simp [readEofCrc, e1, decodeLE32, Bind.bind, Except.bind, Pure.pure,
    Except.pure, hrest]
  omega

/-- A full `read` iteration that parses and dispatches one indexed
member: body and trailer are consumed, a decompression job is queued, a
worker slot is taken, and the loop continues. -/
theorem readLoop_dispatch (z : Zlib) (f size : Nat) (st : RState)
    (mtime msz : Nat) (cb : List Nat) (c i : Nat) (rest : List Nat)
    (hinp : st.inp = rawMember mtime msz cb c i ++ rest)
    (hmsz : msz < 4294967296) (hsz : msz = 28 + cb.length)
    (hrest : rest.dropWhile (fun b => b = 0) = rest)
    (hde : st.dEof = false) (hnm : st.newMember = true) (ht : st.thread ≠ 0) :
    readLoop z (f + 1) st size
      = readLoop z f
        { st with
            inp := rest,
            memberidx := st.memberidx ++ [msz],
            isIG := true,
            headerSize := 20,
            crc := 0,
            streamSize := 0,
            readPool := st.readPool
              ++ [decompressFunc z cb (c % 4294967296) (i % 4294967296)],
            thread := st.thread - 1,
            newMember := true } size := by
  have hhdr := readGzipHeader_rawMember { st with crc := 0, streamSize := 0 }
    mtime msz cb c i rest hinp hmsz
  have hbody := fpRead_append
    { st with
        inp := cb ++ (le32 c ++ (le32 i ++ rest)),
        memberidx := st.memberidx ++ [msz],
        isIG := true,
        headerSize := 20,
        crc := 0,
        streamSize := 0,
        newMember := false }
    cb (le32 c ++ (le32 i ++ rest)) cb.length rfl rfl
  have htrail := readEofCrc_append
    { st with
        inp := le32 c ++ (le32 i ++ rest),
        memberidx := st.memberidx ++ [msz],
        isIG := true,
        headerSize := 20,
        crc := 0,
        streamSize := 0,
        newMember := false }
    c i rest rfl hrest
  have hcpr : msz - 20 - 8 = cb.length := by omega
  simp only [hnm, hde] at hhdr hbody htrail
  simp [readLoop, hde, hnm, ht, hhdr, hcpr, hbody, htrail,
    Bind.bind, Except.bind, Pure.pure, Except.pure]

theorem readGzipHeader_eof (st : RState) (hinp : st.inp = []) :
    readGzipHeader st = .ok (false, st) := by
  cases st
  simp_all [readGzipHeader, fpRead, Pure.pure, Except.pure]

theorem checkDrained_ok (r : DResult) (hlen : r.body.length = r.rsize)
    (hcrc : r.crc = r.rcrc) : checkDrained r = .ok () := by
  simp [checkDrained, hlen, hcrc, Pure.pure, Except.pure, Bind.bind, Except.bind]

/-- A `read` iteration with no free worker slot and a pending job: the
oldest job is drained, validated and its bytes delivered. -/
theorem readLoop_drain_only (z : Zlib) (f size : Nat) (st : RState) (r : DResult)
    (rp : List DResult)
    (hde : st.dEof = false) (ht : st.thread = 0)
    (hpool : st.readPool = r :: rp)
    (hbb : st.blockBuffPos = st.blockBuff.length)
    (hbs : st.blockBuffSize = st.blockBuff.length)
    (hsize : st.blockBuffSize < st.blockBuffPos + size)
    (hlen : r.body.length = r.rsize) (hcrc : r.crc = r.rcrc) :
    readLoop z (f + 1) st size
      = .ok (r.body.take size,
        { st with
            readPool := rp,
            thread := st.thread + 1,
            blockBuff := r.body,
            blockBuffSize := r.body.length,
            blockBuffPos := min size r.body.length }) := by
  have hc1 : ¬ (st.blockBuffPos + size ≤ st.blockBuffSize) := by omega
  have hs0 : ¬ size = 0 := by omega
  have hchk := checkDrained_ok r hlen hcrc
  simp [readLoop, hde, ht, hpool, hchk, hc1, hs0, hbb, hbs, List.drop_length,
    Bind.bind, Except.bind, Pure.pure, Except.pure]

/-- A `read` iteration that hits EOF while probing for the next member
and then drains the oldest pending job. -/
theorem readLoop_eof_drain (z : Zlib) (f size : Nat) (st : RState) (r : DResult)
    (rp : List DResult)
    (hde : st.dEof = false) (hnm : st.newMember = true) (ht : st.thread ≠ 0)
    (hinp : st.inp = []) (hpool : st.readPool = r :: rp)
    (hbb : st.blockBuffPos = st.blockBuff.length)
    (hbs : st.blockBuffSize = st.blockBuff.length)
    (hsize : st.blockBuffSize < st.blockBuffPos + size)
    (hlen : r.body.length = r.rsize) (hcrc : r.crc = r.rcrc) :
    readLoop z (f + 1) st size
      = .ok (r.body.take size,
        { st with
            crc := 0,
            streamSize := 0,
            sizeKnown := (st.pos : Int),
            isEof := true,
            readPool := rp,
            thread := st.thread + 1,
            blockBuff := r.body,
            blockBuffSize := r.body.length,
            blockBuffPos := min size r.body.length }) := by
  have hhdr := readGzipHeader_eof { st with crc := 0, streamSize := 0 }
    (by simp [hinp])
  have hc1 : ¬ (st.blockBuffPos + size ≤ st.blockBuffSize) := by omega
  have hs0 : ¬ size = 0 := by omega
  have hchk := checkDrained_ok r hlen hcrc
  simp only [hnm, hde, hpool, hbb, hbs] at hhdr
  simp [readLoop, hde, hnm, ht, hhdr, hpool, hchk, hc1, hs0, hbb, hbs,
    List.drop_length, Bind.bind, Except.bind, Pure.pure, Except.pure]

/-- A `read` iteration at EOF with nothing pending and the buffer
consumed: the empty string is returned. -/
theorem readLoop_eof_empty (z : Zlib) (f size : Nat) (st : RState)
    (hde : st.dEof = false) (hnm : st.newMember = true) (ht : st.thread ≠ 0)
    (hinp : st.inp = []) (hpool : st.readPool = [])
    (hbb : st.blockBuffPos = st.blockBuffSize)
    (hsize : st.blockBuffSize < st.blockBuffPos + size) :
    readLoop z (f + 1) st size
      = .ok ([], { st with
          crc := 0,
          streamSize := 0,
          sizeKnown := (st.pos : Int),
          isEof := true }) := by
  have hhdr := readGzipHeader_eof { st with crc := 0, streamSize := 0 }
    (by simp [hinp])
  have hc1 : ¬ (st.blockBuffPos + size ≤ st.blockBuffSize) := by omega
  have hs0 : ¬ size = 0 := by omega
  simp only [hnm, hde, hpool, hbb] at hhdr
  simp [readLoop, hde, hnm, ht, hhdr, hpool, hc1, hs0, hbb,
    Bind.bind, Except.bind, Pure.pure, Except.pure]

/-- The facts about a payload and the codec that the reader round trip
relies on: nonempty, representable sizes, and exact inversion of the
deflate body under the ISIZE output cap. -/
def GoodPayload (z : Zlib) (p : List Nat) : Prop :=
  p ≠ [] ∧ p.length < 4294967296 ∧ crc32 z 0 p < 4294967296 ∧
    mszOf z [] p < 4294967296 ∧
    z.inflateCap (z.deflate p) p.length = (p, [])

/-- Reader states reachable between `read` calls on an engine-written
file: `qs` are the payloads of pending (dispatched, undrained) jobs in
FIFO order, `rs` the payloads of the members still in the source. -/
structure RConf (z : Zlib) (t0 mtime : Nat) (qs rs : List (List Nat))
    (st : RState) : Prop where
  hinp : st.inp = (rs.map (memberBytesP z [] mtime)).flatten
  hpool : st.readPool
    = qs.map (fun p => ⟨p, p.length, crc32 z 0 p, crc32 z 0 p⟩)
  hthread : st.thread + qs.length = t0
  hbb : st.blockBuffPos = st.blockBuffSize
  hbs : st.blockBuffSize = st.blockBuff.length
  hblt : st.blockBuff.length < 4294967296
  hnm : st.newMember = true
  hde : st.dEof = false
  heof : st.isEof = true → rs = []

theorem memberBytesP_head (z : Zlib) (fname : List Nat) (mtime : Nat) (p : List Nat) :
    ∃ t, memberBytesP z fname mtime p = 31 :: t := by
  rw [memberBytesP, memberBytesC_split]
  simp only [List.cons_append, List.nil_append]
  exact ⟨_, rfl⟩

theorem readLoop_dispatch_conf (z : Zlib) (t0 mtime f size : Nat)
    (qs rs : List (List Nat)) (p : List Nat) (st : RState)
    (hc : RConf z t0 mtime qs (p :: rs) st)
    (hg : GoodPayload z p) (ht : st.thread ≠ 0) :
    ∃ st2, readLoop z (f + 1) st size = readLoop z f st2 size ∧
      RConf z t0 mtime (qs ++ [p]) rs st2 := by
  obtain ⟨hne, hplen, hcrc, hmsz, hinf⟩ := hg
  have hinp2 : st.inp = rawMember mtime (mszOf z [] p) (z.deflate p)
      (crc32 z 0 p) (p.length % 4294967296)
      ++ (rs.map (memberBytesP z [] mtime)).flatten := by
    rw [hc.hinp, List.map_cons, List.flatten_cons, memberBytesP_rawMember]
  have hsz : mszOf z [] p = 28 + (z.deflate p).length := by
    simp [mszOf, memberSizeOf]
  have hrest : ((rs.map (memberBytesP z [] mtime)).flatten).dropWhile
      (fun b => b = 0) = (rs.map (memberBytesP z [] mtime)).flatten := by
    match rs with
    | [] => rfl
    | q :: rs2 =>
      obtain ⟨t, hq⟩ := memberBytesP_head z [] mtime q
      simp [hq]
  have hstep := readLoop_dispatch z f size st mtime (mszOf z [] p) (z.deflate p)
    (crc32 z 0 p) (p.length % 4294967296) _ hinp2 hmsz hsz hrest hc.hde hc.hnm ht
  refine ⟨_, hstep, ?_⟩
  have hdec : decompressFunc z (z.deflate p) (crc32 z 0 p % 4294967296)
      (p.length % 4294967296 % 4294967296)
      = ⟨p, p.length, crc32 z 0 p, crc32 z 0 p⟩ := by
    rw [Nat.mod_eq_of_lt hcrc]
    have hi : p.length % 4294967296 % 4294967296 = p.length := by omega
    rw [hi, decompressFunc, hinf]
    simp
  refine ⟨rfl, ?_, ?_, hc.hbb, hc.hbs, hc.hblt, rfl, hc.hde, ?_⟩
  · show st.readPool ++ [decompressFunc z (z.deflate p) (crc32 z 0 p % 4294967296)
        (p.length % 4294967296 % 4294967296)]
      = (qs ++ [p]).map (fun q => ⟨q, q.length, crc32 z 0 q, crc32 z 0 q⟩)
    rw [hc.hpool, hdec, List.map_append]
    rfl
  · show st.thread - 1 + (qs ++ [p]).length = t0
    have := hc.hthread
    simp only [List.length_append, List.length_singleton]
    omega
  · intro h
    exact absurd (hc.heof h) (by simp)

theorem take_sysMaxsize (l : List Nat) (h : l.length < 4294967296) :
    l.take sysMaxsize = l := by
  apply List.take_of_length_le
  rw [sysMaxsize]
  omega

theorem min_sysMaxsize (n : Nat) (h : n < 4294967296) :
    min sysMaxsize n = n := by
  apply Nat.min_eq_right
  rw [sysMaxsize]
  omega

/-- One full `read(sys.maxsize)` call on an engine file: either
everything is already delivered (empty result at EOF), or the next
payload in order is delivered and the configuration advances. -/
theorem readLoop_engine (z : Zlib) (t0 mtime : Nat) (ht0 : 1 ≤ t0) :
    ∀ (rs qs : List (List Nat)) (st : RState) (f : Nat),
      rs.length + 1 ≤ f →
      RConf z t0 mtime qs rs st →
      (∀ p ∈ qs ++ rs, GoodPayload z p) →
      (qs ++ rs = [] ∧ ∃ st2, readLoop z f st sysMaxsize = .ok ([], st2)
          ∧ RConf z t0 mtime [] [] st2) ∨
      (∃ p qs2 rs2 st2, qs ++ rs = p :: (qs2 ++ rs2) ∧
        readLoop z f st sysMaxsize = .ok (p, st2) ∧
        RConf z t0 mtime qs2 rs2 st2 ∧
        rs2.length ≤ rs.length ∧
        (∀ q ∈ qs2 ++ rs2, GoodPayload z q))
  | [], qs, st, f, hf, hc, hgood => by
    obtain ⟨g, rfl⟩ : ∃ g, f = g + 1 := ⟨f - 1, by omega⟩
    have hinp : st.inp = [] := by simpa using hc.hinp
    cases qs with
    | nil =>
      left
      have ht : st.thread ≠ 0 := by
        have h1 := hc.hthread
        simp at h1
        omega
      have hpool : st.readPool = [] := by simpa using hc.hpool
      have hsize : st.blockBuffSize < st.blockBuffPos + sysMaxsize := by
        have h1 := hc.hbb
        rw [sysMaxsize]
        omega
      have heq := readLoop_eof_empty z g sysMaxsize st hc.hde hc.hnm ht hinp
        hpool hc.hbb hsize
      exact ⟨rfl, _, heq, ⟨by simpa using hc.hinp, by simpa using hc.hpool,
        by simpa using hc.hthread, hc.hbb, hc.hbs, hc.hblt, hc.hnm, hc.hde,
        fun _ => rfl⟩⟩
    | cons q qs2 =>
      right
      have hgq : GoodPayload z q := hgood q (by simp)
      have hpool : st.readPool = ⟨q, q.length, crc32 z 0 q, crc32 z 0 q⟩
          :: qs2.map (fun p => ⟨p, p.length, crc32 z 0 p, crc32 z 0 p⟩) := by
        simpa using hc.hpool
      have hsize : st.blockBuffSize < st.blockBuffPos + sysMaxsize := by
        have h1 := hc.hbb
        rw [sysMaxsize]
        omega
      have htake : q.take sysMaxsize = q := take_sysMaxsize q hgq.2.1
      have hmin : min sysMaxsize q.length = q.length :=
        min_sysMaxsize q.length hgq.2.1
      have hbb2 : st.blockBuffPos = st.blockBuff.length := hc.hbs ▸ hc.hbb
      by_cases ht : st.thread = 0
      · have heq2 := readLoop_drain_only z g sysMaxsize st _ _ hc.hde ht hpool
          hbb2 hc.hbs hsize rfl rfl
        rw [htake] at heq2
        refine ⟨q, qs2, [], _, by simp, heq2, ?_, by simp, ?_⟩
        · refine ⟨by simpa using hc.hinp, rfl, ?_, by simpa using hmin, by simp,
            by simpa using hgq.2.1, hc.hnm, hc.hde, fun _ => rfl⟩
          have h1 := hc.hthread
          simp at h1 ⊢
          omega
        · intro x hx
          simp at hx
          exact hgood x (by simp [hx])
      · have heq2 := readLoop_eof_drain z g sysMaxsize st _ _ hc.hde hc.hnm ht
          hinp hpool hbb2 hc.hbs hsize rfl rfl
        rw [htake] at heq2
        refine ⟨q, qs2, [], _, by simp, heq2, ?_, by simp, ?_⟩
        · refine ⟨by simpa using hc.hinp, rfl, ?_, by simpa using hmin, by simp,
            by simpa using hgq.2.1, hc.hnm, hc.hde, fun _ => rfl⟩
          have h1 := hc.hthread
          simp at h1 ⊢
          omega
        · intro x hx
          simp at hx
          exact hgood x (by simp [hx])
  | p :: rs, qs, st, f, hf, hc, hgood => by
    obtain ⟨g, rfl⟩ : ∃ g, f = g + 1 := ⟨f - 1, by omega⟩
    by_cases ht : st.thread = 0
    · right
      cases qs with
      | nil =>
        exfalso
        have h1 := hc.hthread
        simp at h1
        omega
      | cons q qs2 =>
        have hgq : GoodPayload z q := hgood q (by simp)
        have hpool : st.readPool = ⟨q, q.length, crc32 z 0 q, crc32 z 0 q⟩
            :: qs2.map (fun x => ⟨x, x.length, crc32 z 0 x, crc32 z 0 x⟩) := by
          simpa using hc.hpool
        have hsize : st.blockBuffSize < st.blockBuffPos + sysMaxsize := by
          have h1 := hc.hbb
          rw [sysMaxsize]
          omega
        have htake : q.take sysMaxsize = q := take_sysMaxsize q hgq.2.1
        have hmin : min sysMaxsize q.length = q.length :=
          min_sysMaxsize q.length hgq.2.1
        have hbb2 : st.blockBuffPos = st.blockBuff.length := hc.hbs ▸ hc.hbb
        have heq2 := readLoop_drain_only z g sysMaxsize st _ _ hc.hde ht hpool
          hbb2 hc.hbs hsize rfl rfl
        rw [htake] at heq2
        refine ⟨q, qs2, p :: rs, _, by simp, heq2, ?_, by simp, ?_⟩
        · refine ⟨by simpa using hc.hinp, rfl, ?_, by simpa using hmin, by simp,
            by simpa using hgq.2.1, hc.hnm, hc.hde, fun h => hc.heof h⟩
          have h1 := hc.hthread
          simp at h1 ⊢
          omega
        · intro x hx
          refine hgood x ?_
          simp at hx ⊢
          tauto
    · obtain ⟨st2, hstep, hc2⟩ := readLoop_dispatch_conf z t0 mtime g sysMaxsize
        qs rs p st hc (hgood p (by simp)) ht
      have hgood2 : ∀ x ∈ (qs ++ [p]) ++ rs, GoodPayload z x := by
        intro x hx
        refine hgood x ?_
        simp at hx ⊢
        tauto
      have hf2 : rs.length + 1 ≤ g := by
        simp at hf
        omega
      have hrec := readLoop_engine z t0 mtime ht0 rs (qs ++ [p]) st2 g hf2 hc2
        hgood2
      rcases hrec with ⟨hemp, _⟩ | ⟨q, qs2, rs2, st3, heq, hrun, hc3, hlen, hg3⟩
      · simp at hemp
      · right
        refine ⟨q, qs2, rs2, st3, ?_, ?_, hc3, ?_, hg3⟩
        · have h1 : qs ++ p :: rs = (qs ++ [p]) ++ rs := by simp
          rw [h1, heq]
        · rw [hstep]
          exact hrun
        · simp
          omega



theorem crc32_lt (z : Zlib) (hcrc : ∀ s b, z.crcStep s b < 4294967296) :
    ∀ (p : List Nat) (seed : Nat), seed < 4294967296 →
      crc32 z seed p < 4294967296
  | [], _, h => h
  | b :: t, seed, _ => crc32_lt z hcrc t (z.crcStep seed b) (hcrc seed b)

theorem length_le_flatten_length (l : List (List Nat))
    (h : ∀ x ∈ l, x ≠ []) : l.length ≤ l.flatten.length := by
  induction l with
  | nil => simp
  | cons a t ih =>
    have ha : a ≠ [] := h a (by simp)
    have h1 : 1 ≤ a.length := by
      cases a with
      | nil => exact absurd rfl ha
      | cons x xs => simp
    have h2 := ih (fun x hx => h x (by simp [hx]))
    simp only [List.flatten_cons, List.length_append, List.length_cons]
    omega

/-- `readall` on an engine file: delivers the concatenation of the
pending and remaining payloads, in order. -/
theorem readAllGo_engine (z : Zlib) (t0 mtime : Nat) (ht0 : 1 ≤ t0) :
    ∀ (n : Nat) (qs rs : List (List Nat)) (st : RState) (acc : List Nat)
      (g : Nat),
      rs.length + 1 ≤ g →
      (qs ++ rs).length + 1 ≤ n →
      RConf z t0 mtime qs rs st →
      (∀ p ∈ qs ++ rs, GoodPayload z p) →
      ∃ st2, readAllGo z g n st acc = .ok (acc ++ (qs ++ rs).flatten, st2)
  | 0, qs, rs, st, acc, g, hg, hn, hc, hgood => by omega
  | n + 1, qs, rs, st, acc, g, hg, hn, hc, hgood => by
    rcases readLoop_engine z t0 mtime ht0 rs qs st g hg hc hgood with
      ⟨hemp, st2, hrun, _⟩ | ⟨p, qs2, rs2, st2, heq, hrun, hc2, hlen, hg2⟩
    · refine ⟨st2, ?_⟩
      simp [readAllGo, hrun, Bind.bind, Except.bind, hemp]
    · have hpne : p ≠ [] := (hgood p (by rw [heq]; simp)).1
      have hlen2 : (qs ++ rs).length = (qs2 ++ rs2).length + 1 := by
        rw [heq]
        simp
      have hn2 : (qs2 ++ rs2).length + 1 ≤ n := by omega
      obtain ⟨st3, hrec⟩ := readAllGo_engine z t0 mtime ht0 n qs2 rs2 st2
        (acc ++ p) g (by omega) hn2 hc2 hg2
      refine ⟨st3, ?_⟩
      have hflat2 : acc ++ (qs ++ rs).flatten
          = (acc ++ p) ++ (qs2 ++ rs2).flatten := by
        rw [heq]
        simp
      rw [hflat2]
      simp [readAllGo, hrun, hpne, Bind.bind, Except.bind, hrec]

theorem crc32_ceZ (p : List Nat) (s : Nat) : crc32 ceZ s p = s := by
  induction p generalizing s with
  | nil => rfl
  | cons b t ih => exact ih s

theorem checkDrained_err_len (r : DResult) (h : r.body.length ≠ r.rsize) :
    checkDrained r = .error .sizeMismatch := by
  simp [checkDrained, h, Bind.bind, Except.bind, throw, throwThe,
    MonadExceptOf.throw]

/-- A `read` iteration with no free worker slot whose oldest job fails
validation: the error propagates to the caller. -/
theorem readLoop_drain_err (z : Zlib) (f size : Nat) (st : RState) (r : DResult)
    (rp : List DResult) (e : RErr)
    (hde : st.dEof = false) (ht : st.thread = 0)
    (hpool : st.readPool = r :: rp)
    (hbb : st.blockBuffPos = st.blockBuff.length)
    (hbs : st.blockBuffSize = st.blockBuff.length)
    (hsize : st.blockBuffSize < st.blockBuffPos + size)
    (hchk : checkDrained r = .error e) :
    readLoop z (f + 1) st size = .error e := by
  have hc1 : ¬ (st.blockBuffPos + size ≤ st.blockBuffSize) := by omega
  have hs0 : ¬ size = 0 := by omega
  simp [readLoop, hde, ht, hpool, hchk, hc1, hs0, hbb, hbs,
    Bind.bind, Except.bind, Pure.pure, Except.pure]

theorem readAllGo_err (z : Zlib) (inner fuel : Nat) (st : RState)
    (acc : List Nat) (e : RErr) (hf : fuel ≠ 0)
    (h : readLoop z inner st sysMaxsize = .error e) :
    readAllGo z inner fuel st acc = .error e := by
  obtain ⟨g, rfl⟩ : ∃ g, fuel = g + 1 := ⟨fuel - 1, by omega⟩
  simp [readAllGo, h, Bind.bind, Except.bind]


/-- Bytes already on the sink followed by the members the pending queue
will produce: drains move material from the queue part to the sink part
without changing the concatenation. -/
def pendingOut (ctx : WCtx) (st : WState) : List Nat :=
  st.out ++ (st.poolResult.map (memberBytesJ ctx)).flatten

theorem memberBytesJ_payload (ctx : WCtx) (j : JobArgs) :
    memberBytesJ ctx j = memberBytesP ctx.z ctx.fname ctx.mtime (JobArgs.payload j) := by
  simp [memberBytesJ, memberBytesP, compressFunc, JobArgs.payload, crc32,
    List.foldl_append]

theorem drainEv_pendingOut (ctx : WCtx) :
    ∀ (n : Nat) (st : WState),
      pendingOut ctx (drainEv ctx n st).1 = pendingOut ctx st ∧
        (drainEv ctx n st).1.smallBuf = st.smallBuf
  | 0, _ => ⟨rfl, rfl⟩
  | n + 1, st => by
    match h : st.poolResult with
    | [] => simp [drainEv, h]
    | j :: rest =>
      have ih := drainEv_pendingOut ctx n
        { st with poolResult := rest, out := st.out ++ memberBytesJ ctx j }
      simp only [drainEv, h] at ih ⊢
      refine ⟨?_, ih.2⟩
      rw [ih.1]
      simp [pendingOut, h]

theorem flushPool_pendingOut (ctx : WCtx) (force : Bool) (st : WState) :
    pendingOut ctx (flushPool ctx force st) = pendingOut ctx st ∧
      (flushPool ctx force st).smallBuf = st.smallBuf := by
  unfold flushPool
  split
  · exact ⟨rfl, rfl⟩
  · exact drainEv_pendingOut ctx _ st

theorem drainEv_all (ctx : WCtx) :
    ∀ (q : List JobArgs) (st : WState), st.poolResult = q →
      drainEv ctx q.length st
        = ({ st with
              poolResult := [],
              out := st.out ++ (q.map (memberBytesJ ctx)).flatten },
            q.map (fun j => Event.emitMember (JobArgs.payload j)))
  | [], st, h => by cases st; simp_all [drainEv]
  | j :: q, st, h => by
    have ih := drainEv_all ctx q
      { st with poolResult := q, out := st.out ++ memberBytesJ ctx j } rfl
    simp [drainEv, h, ih]

theorem compressBlockAsync_eq (st : WState) (data : List Nat) :
    compressBlockAsync st data
      = { st with poolResult := st.poolResult ++ [(data, st.smallBuf)], smallBuf := [] } := by
  by_cases h : st.smallBuf.length = 0
  · have : st.smallBuf = [] := List.length_eq_zero.mp h
    cases st
    simp_all [compressBlockAsync, compressAsync]
  · simp [compressBlockAsync, compressAsync, h]

theorem mgClose_out (ctx : WCtx) (st : WState) :
    (mgClose ctx st).out
      = pendingOut ctx st
        ++ (if st.smallBuf.length ≠ 0 then memberBytesJ ctx (st.smallBuf, []) else []) := by
  by_cases h : st.smallBuf.length ≠ 0
  · simp only [mgClose, closeEv, if_pos h]
    rw [drainEv_all ctx (st.poolResult ++ [(st.smallBuf, [])])
      { smallBuf := [], poolResult := st.poolResult ++ [(st.smallBuf, [])], out := st.out } rfl]
    simp [pendingOut]
  · simp only [mgClose, closeEv, if_neg h]
    rw [drainEv_all ctx st.poolResult { st with poolResult := st.poolResult } rfl]
    simp [pendingOut]

theorem chunkJobs_nil_sb (cs : List (List Nat)) :
    chunkJobs [] cs = cs.map (fun x => (x, [])) := by
  cases cs <;> simp [chunkJobs]

theorem writeBigLoop_chars (ctx : WCtx) :
    ∀ (fuel : Nat) (st : WState) (d : List Nat),
      (pendingOut ctx (writeBigLoop ctx fuel st d)
          = pendingOut ctx st
            ++ ((chunkJobs st.smallBuf (chunksGo ctx.blocksize fuel d)).map
                (memberBytesJ ctx)).flatten) ∧
        (writeBigLoop ctx fuel st d).smallBuf
          = if fuel = 0 ∨ d.length = 0 then st.smallBuf else []
  | 0, st, d => by simp [writeBigLoop, chunksGo, chunkJobs]
  | fuel + 1, st, d => by
    by_cases hd : d.length = 0
    · simp [writeBigLoop, chunksGo, hd, chunkJobs]
    · have ih := writeBigLoop_chars ctx fuel
        (flushPool ctx false (compressBlockAsync st (d.take ctx.blocksize)))
        (d.drop ctx.blocksize)
      have hfl := flushPool_pendingOut ctx false (compressBlockAsync st (d.take ctx.blocksize))
      have hcb : pendingOut ctx (compressBlockAsync st (d.take ctx.blocksize))
          = pendingOut ctx st ++ memberBytesJ ctx (d.take ctx.blocksize, st.smallBuf) := by
        rw [compressBlockAsync_eq]
        simp [pendingOut]
      have hsb : (flushPool ctx false
          (compressBlockAsync st (d.take ctx.blocksize))).smallBuf = [] := by
        rw [hfl.2, compressBlockAsync_eq]
      refine ⟨?_, ?_⟩
      · simp only [writeBigLoop, if_neg hd]
        rw [ih.1, hsb, chunkJobs_nil_sb, hfl.1, hcb]
        simp only [chunksGo, if_neg hd]
        simp [chunkJobs, List.map_map, Function.comp]
      · simp only [writeBigLoop, if_neg hd]
        rw [ih.2, hsb]
        simp [hd]

theorem mgWrite_chars (ctx : WCtx) (st : WState) (data : List Nat) :
    pendingOut ctx (mgWrite ctx st data)
        = pendingOut ctx st
          ++ (((jobsOfWrite ctx.blocksize st.smallBuf data).1.map
              (memberBytesJ ctx)).flatten) ∧
      (mgWrite ctx st data).smallBuf
        = (jobsOfWrite ctx.blocksize st.smallBuf data).2 := by
  by_cases h0 : data.length = 0
  · simp [mgWrite, jobsOfWrite, h0]
  · by_cases h1 : ctx.blocksize ≤ data.length
    · by_cases h2 : data.length < 2 * ctx.blocksize
      · have hfl := flushPool_pendingOut ctx false (compressBlockAsync st data)
        have hcb : pendingOut ctx (compressBlockAsync st data)
            = pendingOut ctx st ++ memberBytesJ ctx (data, st.smallBuf) := by
          rw [compressBlockAsync_eq]
          simp [pendingOut]
        simp only [mgWrite, if_neg h0, if_pos h1, if_pos h2, jobsOfWrite]
        refine ⟨?_, ?_⟩
        · rw [hfl.1, hcb]
          simp
        · rw [hfl.2, compressBlockAsync_eq]
      · have hbig := writeBigLoop_chars ctx data.length st data
        have hfl := flushPool_pendingOut ctx false (writeBigLoop ctx data.length st data)
        simp only [mgWrite, if_neg h0, if_pos h1, if_neg h2, jobsOfWrite]
        refine ⟨?_, ?_⟩
        · rw [hfl.1, hbig.1]
        · rw [hfl.2, hbig.2]
          simp [h0]
    · by_cases h3 : ctx.blocksize ≤ (st.smallBuf ++ data).length
      · have hfl := flushPool_pendingOut ctx false
          { st with smallBuf := [], poolResult := st.poolResult ++ [(st.smallBuf ++ data, [])] }
        simp only [mgWrite, if_neg h0, if_neg h1, if_pos h3, jobsOfWrite]
        refine ⟨?_, ?_⟩
        · rw [hfl.1]
          simp [pendingOut]
        · rw [hfl.2]
      · have hfl := flushPool_pendingOut ctx false { st with smallBuf := st.smallBuf ++ data }
        simp only [mgWrite, if_neg h0, if_neg h1, if_neg h3, jobsOfWrite]
        refine ⟨?_, ?_⟩
        · rw [hfl.1]
          simp [pendingOut]
        · rw [hfl.2]

theorem jobsAccum_split (B : Nat) :
    ∀ (ds : List (List Nat)) (js : List JobArgs) (sb : List Nat),
      jobsAccum B (js, sb) ds
        = (js ++ (jobsAccum B ([], sb) ds).1, (jobsAccum B ([], sb) ds).2)
  | [], js, sb => by simp [jobsAccum]
  | d :: ds, js, sb => by
    simp only [jobsAccum]
    rw [jobsAccum_split B ds (js ++ (jobsOfWrite B sb d).1) ((jobsOfWrite B sb d).2),
      jobsAccum_split B ds ([] ++ (jobsOfWrite B sb d).1) ((jobsOfWrite B sb d).2)]
    simp

theorem writeSeq_chars (ctx : WCtx) :
    ∀ (ds : List (List Nat)) (st : WState),
      pendingOut ctx (writeSeq ctx st ds)
          = pendingOut ctx st
            ++ (((jobsAccum ctx.blocksize ([], st.smallBuf) ds).1.map
                (memberBytesJ ctx)).flatten) ∧
        (writeSeq ctx st ds).smallBuf
          = (jobsAccum ctx.blocksize ([], st.smallBuf) ds).2
  | [], st => by simp [writeSeq, jobsAccum]
  | d :: ds, st => by
    have hw := mgWrite_chars ctx st d
    have ih := writeSeq_chars ctx ds (mgWrite ctx st d)
    simp only [writeSeq, List.foldl_cons] at ih ⊢
    simp only [jobsAccum]
    rw [jobsAccum_split ctx.blocksize ds ([] ++ (jobsOfWrite ctx.blocksize st.smallBuf d).1)
      ((jobsOfWrite ctx.blocksize st.smallBuf d).2)]
    refine ⟨?_, ?_⟩
    · rw [ih.1, hw.1, hw.2]
      simp
    · rw [ih.2, hw.2]

/-- What a write sequence followed by `close` puts on the sink: one
member per payload of `closedPayloads`, in order. -/
theorem writer_out_closedPayloads (ctx : WCtx) (ds : List (List Nat)) :
    (mgClose ctx (writeSeq ctx initW ds)).out
      = ((closedPayloads ctx.blocksize ds).map
          (memberBytesP ctx.z ctx.fname ctx.mtime)).flatten := by
  have hseq := writeSeq_chars ctx ds initW
  have hmb : memberBytesJ ctx
      = fun j => memberBytesP ctx.z ctx.fname ctx.mtime (JobArgs.payload j) :=
    funext (memberBytesJ_payload ctx)
  rw [mgClose_out, hseq.1, hseq.2]
  simp only [closedPayloads, pendingOut, initW]
  by_cases h : (jobsAccum ctx.blocksize ([], []) ds).2.length ≠ 0
  · simp only [if_pos h]
    rw [hmb]
    simp [Function.comp_def, JobArgs.payload]
  · simp only [if_neg h]
    simp at h
    rw [hmb]
    simp [Function.comp_def, h]

/-! ## Properties of the emitted payloads -/

theorem chunksGo_flatten (B : Nat) (hB : 1 ≤ B) :
    ∀ (fuel : Nat) (d : List Nat), d.length ≤ fuel →
      (chunksGo B fuel d).flatten = d
  | 0, d, h => by
    simp [chunksGo, List.eq_nil_of_length_eq_zero (Nat.le_zero.mp h)]
  | fuel + 1, d, h => by
    by_cases hd : d.length = 0
    · simp [chunksGo, hd, List.eq_nil_of_length_eq_zero hd]
    · have hr : (d.drop B).length ≤ fuel := by
        simp only [List.length_drop]
        omega
      simp [chunksGo, hd, chunksGo_flatten B hB fuel (d.drop B) hr]

theorem chunksGo_mem (B : Nat) (hB : 1 ≤ B) :
    ∀ (fuel : Nat) (d : List Nat), ∀ c ∈ chunksGo B fuel d,
      c ≠ [] ∧ c.length ≤ B
  | 0, d => by simp [chunksGo]
  | fuel + 1, d => by
    by_cases hd : d.length = 0
    · simp [chunksGo, hd]
    · intro c hc
      simp only [chunksGo, if_neg hd, List.mem_cons] at hc
      rcases hc with hc | hc
      · subst hc
        constructor
        · simp only [ne_eq, List.take_eq_nil_iff]
          push_neg
          constructor <;> [omega; exact fun hn => hd (by simp [hn])]
        · simp [List.length_take]
      · exact chunksGo_mem B hB fuel (d.drop B) c hc

theorem chunksGo_length (B : Nat) (hB : 1 ≤ B) :
    ∀ (fuel : Nat) (d : List Nat), d.length ≤ fuel →
      (chunksGo B fuel d).length = (d.length + B - 1) / B
  | 0, d, h => by
    have hd : d.length = 0 := Nat.le_zero.mp h
    rw [Nat.div_eq_of_lt (by omega)]
    simp [chunksGo, hd]
  | fuel + 1, d, h => by
    by_cases hd : d.length = 0
    · rw [Nat.div_eq_of_lt (by omega)]
      simp [chunksGo, hd]
    · have hr : (d.drop B).length ≤ fuel := by
        simp only [List.length_drop]
        omega
      have ih := chunksGo_length B hB fuel (d.drop B) hr
      simp only [chunksGo, if_neg hd, List.length_cons, ih, List.length_drop]
      by_cases hL : d.length ≤ B
      · have e1 : d.length - B + B - 1 = B - 1 := by omega
        have e2 : d.length + B - 1 = (d.length - 1) + B := by omega
        rw [e1, Nat.div_eq_of_lt (by omega), e2, Nat.add_div_right _ (by omega),
          Nat.div_eq_of_lt (by omega)]
      · have e5 : d.length + B - 1 = (d.length - B + B - 1) + B := by omega
        rw [e5, Nat.add_div_right _ (by omega)]

theorem chunkJobs_payload_flatten (sb : List Nat) (c : List Nat) (cs : List (List Nat)) :
    ((chunkJobs sb (c :: cs)).map JobArgs.payload).flatten = sb ++ c ++ cs.flatten := by
  simp [chunkJobs, JobArgs.payload, List.map_map, Function.comp_def]

theorem jobsOfWrite_conserve (B : Nat) (hB : 1 ≤ B) (sb data : List Nat) :
    ((jobsOfWrite B sb data).1.map JobArgs.payload).flatten
      ++ (jobsOfWrite B sb data).2 = sb ++ data := by
  unfold jobsOfWrite
  by_cases h0 : data.length = 0
  · simp [h0, List.eq_nil_of_length_eq_zero h0]
  · by_cases h1 : B ≤ data.length
    · by_cases h2 : data.length < 2 * B
      · simp [h0, h1, h2, JobArgs.payload]
      · match hcg : chunksGo B data.length data with
        | [] =>
          exfalso
          have hfl := chunksGo_flatten B hB data.length data (Nat.le_refl _)
          rw [hcg] at hfl
          simp only [List.flatten_nil] at hfl
          exact h0 (by simp [← hfl])
        | c :: cs =>
          have hfl := chunksGo_flatten B hB data.length data (Nat.le_refl _)
          rw [hcg] at hfl
          simp only [List.flatten_cons] at hfl
          simp only [if_neg h0, if_pos h1, if_neg h2, hcg]
          rw [chunkJobs_payload_flatten]
          simp [hfl, List.append_assoc]
    · by_cases h3 : B ≤ sb.length + data.length
      · simp [h0, h1, h3, JobArgs.payload]
      · simp [h0, h1, h3]

theorem jobsOfWrite_sb (B : Nat) (hB : 1 ≤ B) (sb data : List Nat)
    (hsb : sb.length < B) : (jobsOfWrite B sb data).2.length < B := by
  unfold jobsOfWrite
  by_cases h0 : data.length = 0
  · simpa [h0] using hsb
  · by_cases h1 : B ≤ data.length
    · by_cases h2 : data.length < 2 * B <;> simp [h0, h1, h2] <;> omega
    · by_cases h3 : B ≤ sb.length + data.length
      · simp [h0, h1, h3]
        omega
      · simp [h0, h1, h3]
        omega

theorem jobsOfWrite_payload_bound (B : Nat) (hB : 1 ≤ B) (sb data : List Nat)
    (hsb : sb.length < B) :
    ∀ j ∈ (jobsOfWrite B sb data).1,
      JobArgs.payload j ≠ [] ∧ (JobArgs.payload j).length ≤ 3 * B - 2 := by
  unfold jobsOfWrite
  by_cases h0 : data.length = 0
  · simp [h0]
  · by_cases h1 : B ≤ data.length
    · by_cases h2 : data.length < 2 * B
      · intro j hj
        simp only [if_neg h0, if_pos h1, if_pos h2, List.mem_singleton] at hj
        subst hj
        refine ⟨?_, ?_⟩
        · simp only [JobArgs.payload, ne_eq, List.append_eq_nil]
          intro hn
          exact h0 (by simp [hn.2])
        · simp only [JobArgs.payload, List.length_append]
          omega
      · match hcg : chunksGo B data.length data with
        | [] =>
          simp only [if_neg h0, if_pos h1, if_neg h2, hcg, chunkJobs]
          simp
        | c :: cs =>
          intro j hj
          have hmem := chunksGo_mem B hB data.length data
          rw [hcg] at hmem
          simp only [if_neg h0, if_pos h1, if_neg h2, hcg] at hj
          rw [chunkJobs] at hj
          rcases List.mem_cons.mp hj with hj | hj
          · subst hj
            have hc := hmem c (by simp)
            refine ⟨?_, ?_⟩
            · simp only [JobArgs.payload, ne_eq, List.append_eq_nil]
              intro hn
              exact hc.1 hn.2
            · simp only [JobArgs.payload, List.length_append]
              omega
          · rcases List.mem_map.mp hj with ⟨x, hx, hj⟩
            subst hj
            have hx2 := hmem x (List.mem_cons_of_mem c hx)
            refine ⟨?_, ?_⟩
            · simpa [JobArgs.payload] using hx2.1
            · simp only [JobArgs.payload, List.length_append, List.length_nil]
              omega
    · by_cases h3 : B ≤ sb.length + data.length
      · intro j hj
        simp only [if_neg h0, if_neg h1] at hj
        simp only [List.length_append, if_pos h3, List.mem_singleton] at hj
        subst hj
        refine ⟨?_, ?_⟩
        · simp only [JobArgs.payload, ne_eq, List.append_eq_nil]
          intro hn
          exact h0 (by simp [hn.2.2])
        · simp only [JobArgs.payload, List.length_append, List.length_nil]
          omega
      · simp [h0, h1, h3]

theorem jobsAccum_props (B : Nat) (hB : 1 ≤ B) :
    ∀ (ds : List (List Nat)) (sb : List Nat), sb.length < B →
      (((jobsAccum B ([], sb) ds).1.map JobArgs.payload).flatten
          ++ (jobsAccum B ([], sb) ds).2 = sb ++ ds.flatten) ∧
        (jobsAccum B ([], sb) ds).2.length < B ∧
        (∀ j ∈ (jobsAccum B ([], sb) ds).1,
          JobArgs.payload j ≠ [] ∧ (JobArgs.payload j).length ≤ 3 * B - 2)
  | [], sb, h =>
    ⟨by simp [jobsAccum], by simpa [jobsAccum] using h, by simp [jobsAccum]⟩
  | d :: ds, sb, h => by
    have hw1 := jobsOfWrite_conserve B hB sb d
    have hw2 := jobsOfWrite_sb B hB sb d h
    have hw3 := jobsOfWrite_payload_bound B hB sb d h
    have ih := jobsAccum_props B hB ds (jobsOfWrite B sb d).2 hw2
    simp only [jobsAccum]
    rw [jobsAccum_split B ds ([] ++ (jobsOfWrite B sb d).1) ((jobsOfWrite B sb d).2)]
    refine ⟨?_, ?_, ?_⟩
    · simp only [List.nil_append, List.map_append, List.flatten_append, List.flatten_cons]
      rw [List.append_assoc, ih.1, ← List.append_assoc, hw1]
      simp
    · exact ih.2.1
    · intro j hj
      simp only [List.nil_append, List.mem_append] at hj
      rcases hj with hj | hj
      · exact hw3 j hj
      · exact ih.2.2 j hj

theorem closedPayloads_props (B : Nat) (hB : 1 ≤ B) (ds : List (List Nat)) :
    (closedPayloads B ds).flatten = ds.flatten ∧
      ∀ p ∈ closedPayloads B ds, p ≠ [] ∧ p.length ≤ 3 * B - 2 := by
  have h := jobsAccum_props B hB ds [] (by simp
                                           omega)
  have h1 := h.1
  simp only [List.nil_append] at h1
  simp only [closedPayloads]
  by_cases hs : (jobsAccum B ([], []) ds).2.length ≠ 0
  · rw [if_pos hs]
    refine ⟨?_, ?_⟩
    · rw [List.flatten_append]
      simp only [List.flatten_cons, List.flatten_nil, List.append_nil]
      exact h1
    · intro p hp
      rcases List.mem_append.mp hp with hp | hp
      · rcases List.mem_map.mp hp with ⟨j, hj, hp⟩
        subst hp
        exact h.2.2 j hj
      · rw [List.mem_singleton] at hp
        subst hp
        have hb := h.2.1
        exact ⟨fun hn => hs (by simp [hn]), by omega⟩
  · rw [if_neg hs]
    simp only [ne_eq, not_not] at hs
    have hnil : (jobsAccum B ([], []) ds).2 = [] := List.length_eq_zero.mp hs
    refine ⟨?_, ?_⟩
    · rw [hnil, List.append_nil] at h1
      rw [List.append_nil]
      exact h1
    · intro p hp
      rw [List.append_nil] at hp
      rcases List.mem_map.mp hp with ⟨j, hj, hp⟩
      subst hp
      exact h.2.2 j hj

/-! ## Index walk over engine output -/

theorem memberBytesP_length (z : Zlib) (fname : List Nat) (mtime : Nat) (p : List Nat) :
    (memberBytesP z fname mtime p).length = mszOf z fname p := by
  rw [memberBytesP, memberBytesC_length]
  simp [compressFunc, mszOf]

theorem memberBytesP_decomp (z : Zlib) (fname : List Nat) (mtime : Nat) (p : List Nat) :
    ∃ pre12 mid,
      memberBytesP z fname mtime p
          = pre12 ++ (([73, 71] ++ ([4, 0] ++ le32 (mszOf z fname p))) ++ mid)
        ∧ pre12.length = 12 ∧
        ([73, 71] ++ ([4, 0] ++ le32 (mszOf z fname p)) : List Nat).length = 8 := by
  refine ⟨[31, 139] ++ [8] ++ [if fname.length = 0 then 4 else 12] ++ le32 mtime
      ++ [2, 255] ++ [8, 0],
    (if fname.length = 0 then [] else fname ++ [0])
      ++ ((compressFunc z (p, [])).cbytes
        ++ (le32 (compressFunc z (p, [])).crc
          ++ le32 ((compressFunc z (p, [])).size % 4294967296))),
    ?_, by simp [le32], by simp [le32]⟩
  rw [memberBytesP, memberBytesC_split]
  have hm : memberSizeOf fname.length (compressFunc z (p, [])).cbytes.length
      = mszOf z fname p := by
    simp [compressFunc, mszOf]
  rw [hm]
  simp [List.append_assoc]

theorem memberBytesP_isize (z : Zlib) (fname : List Nat) (mtime : Nat) (p : List Nat) :
    ∃ front : List Nat,
      memberBytesP z fname mtime p = front ++ le32 (p.length % 4294967296)
        ∧ front.length + 4 = mszOf z fname p := by
  refine ⟨memberHeaderBytes fname mtime (compressFunc z (p, [])).cbytes.length
      ++ ((compressFunc z (p, [])).cbytes ++ le32 (compressFunc z (p, [])).crc),
    ?_, ?_⟩
  · have hsz : (compressFunc z (p, [])).size % 4294967296
        = p.length % 4294967296 := by
      simp [compressFunc]
    rw [memberBytesP, memberBytesC, ← hsz]
    simp [List.append_assoc]
  · have h1 := memberBytesP_length z fname mtime p
    rw [memberBytesP, memberBytesC] at h1
    simp only [List.length_append, le32, List.length_cons, List.length_nil] at h1 ⊢
    omega

theorem readAt_skip (a b : List Nat) (n k m : Nat) (h : a.length = n) :
    readAt (a ++ b) (n + k) m = readAt b k m := by
  rw [readAt, readAt, ← h, List.drop_append]

theorem readAt_zero (b : List Nat) (m : Nat) : readAt b 0 m = b.take m := rfl

/-- One successful iteration of the `get_index` loop. -/
theorem getIndexLoop_step (file : List Nat) (f : Nat) (acc : List IEntry)
    (pos msz isz : Nat)
    (hoff : (match acc.getLast? with
      | none => 0
      | some e => e.off + e.msize) = pos)
    (hef : readAt file (pos + 12) 8 = [73, 71] ++ ([4, 0] ++ le32 msz))
    (hmsz : msz < 4294967296)
    (hisb : readAt file (pos + msz - 4) 4 = le32 isz)
    (hisz : isz < 4294967296) :
    getIndexLoop file (f + 1) acc
      = getIndexLoop file f (acc ++ [⟨pos, msz, isz⟩]) := by
  simp only [getIndexLoop, hoff, hef]
  rw [if_neg (by simp [le32]), if_neg (by simp [le32]), if_neg (by simp)]
  have hdrop : (([73, 71] ++ ([4, 0] ++ le32 msz) : List Nat)).drop 4 = le32 msz := by
    simp [le32]
  rw [hdrop, decodeLE32_le32, Nat.mod_eq_of_lt hmsz, hisb,
    if_neg (by simp [le32]), decodeLE32_le32, Nat.mod_eq_of_lt hisz]

/-- The loop's clean-EOF exit: reading past the end returns the
accumulated entries. -/
theorem getIndexLoop_eof (file : List Nat) (f : Nat) (acc : List IEntry) (pos : Nat)
    (hoff : (match acc.getLast? with
      | none => 0
      | some e => e.off + e.msize) = pos)
    (hpos : file.length ≤ pos) :
    getIndexLoop file (f + 1) acc = some acc := by
  simp only [getIndexLoop, hoff]
  rw [readAt, List.drop_eq_nil_of_le (by omega)]
  simp

/-- Walking `get_index` over `pre ++ members( ps )` from an accumulator
whose next offset is `pre.length` appends exactly `entriesWalk` for the
remaining payloads. -/
theorem getIndexLoop_members (z : Zlib) (fname : List Nat) (mtime : Nat) :
    ∀ (ps : List (List Nat)) (pre : List Nat) (acc : List IEntry) (fuel : Nat),
      ps.length + 1 ≤ fuel →
      (∀ p ∈ ps, mszOf z fname p < 4294967296) →
      (match acc.getLast? with
        | none => 0
        | some e => e.off + e.msize) = pre.length →
      getIndexLoop (pre ++ (ps.map (memberBytesP z fname mtime)).flatten) fuel acc
        = some (acc ++ entriesWalk z fname mtime pre.length ps)
  | [], pre, acc, fuel, hf, _, hoff => by
    match fuel, hf with
    | f + 1, _ =>
      rw [List.map_nil, List.flatten_nil, List.append_nil,
        getIndexLoop_eof pre f acc pre.length hoff (by omega)]
      simp [entriesWalk]
  | p :: ps, pre, acc, fuel, hf, hsz, hoff => by
    match fuel, hf with
    | f + 1, hf =>
      have hszp : mszOf z fname p < 4294967296 := hsz p (by simp)
      have hmsz28 : 28 ≤ mszOf z fname p := by
        rw [mszOf, memberSizeOf]
        split <;> omega
      obtain ⟨pre12, mid, hsplit, h12, h8⟩ := memberBytesP_decomp z fname mtime p
      obtain ⟨front, hfr, hfl⟩ := memberBytesP_isize z fname mtime p
      have hmb := memberBytesP_length z fname mtime p
      simp only [List.map_cons, List.flatten_cons]
      have hef : readAt (pre ++ (memberBytesP z fname mtime p
            ++ (ps.map (memberBytesP z fname mtime)).flatten)) (pre.length + 12) 8
          = [73, 71] ++ ([4, 0] ++ le32 (mszOf z fname p)) := by
        rw [readAt_skip _ _ _ 12 8 rfl, hsplit, List.append_assoc,
          show (12 : Nat) = 12 + 0 by rfl, readAt_skip _ _ _ 0 8 h12, readAt_zero,
          List.append_assoc, List.take_left' h8]
      have hisb : readAt (pre ++ (memberBytesP z fname mtime p
            ++ (ps.map (memberBytesP z fname mtime)).flatten))
            (pre.length + mszOf z fname p - 4) 4
          = le32 (p.length % 4294967296) := by
        have e1 : pre.length + mszOf z fname p - 4
            = pre.length + (mszOf z fname p - 4) := by omega
        rw [e1, readAt_skip _ _ _ (mszOf z fname p - 4) 4 rfl, hfr, List.append_assoc]
        have e2 : mszOf z fname p - 4 = front.length + 0 := by omega
        rw [e2, readAt_skip _ _ _ 0 4 rfl, readAt_zero, List.take_left' (by simp [le32])]
      rw [getIndexLoop_step _ f acc pre.length (mszOf z fname p)
        (p.length % 4294967296) hoff hef hszp hisb (by omega)]
      have hstep := getIndexLoop_members z fname mtime ps
        (pre ++ memberBytesP z fname mtime p)
        (acc ++ [⟨pre.length, mszOf z fname p, p.length % 4294967296⟩]) f
        (by simpa using hf) (fun q hq => hsz q (by simp [hq])) (by
          rw [List.getLast?_concat]
          simp [List.length_append, hmb])
      rw [List.append_assoc] at hstep
      rw [hstep]
      simp only [List.length_append, hmb]
      rw [entriesWalk]
      simp [List.append_assoc, mszOf]

theorem entriesWalk_cons (z : Zlib) (fname : List Nat) (mtime off : Nat)
    (p : List Nat) (ps : List (List Nat)) :
    entriesWalk z fname mtime off (p :: ps)
      = ⟨off, mszOf z fname p, p.length % 4294967296⟩
        :: entriesWalk z fname mtime (off + mszOf z fname p) ps := rfl

theorem entriesWalk_length (z : Zlib) (fname : List Nat) (mtime : Nat) :
    ∀ (ps : List (List Nat)) (off : Nat),
      (entriesWalk z fname mtime off ps).length = ps.length
  | [], _ => rfl
  | p :: ps, off => by
    rw [entriesWalk_cons, List.length_cons, entriesWalk_length z fname mtime ps]
    rfl

theorem entriesWalk_head (z : Zlib) (fname : List Nat) (mtime : Nat)
    (ps : List (List Nat)) (off : Nat) (e : IEntry)
    (h : (entriesWalk z fname mtime off ps).head? = some e) : e.off = off := by
  match ps with
  | [] => simp [entriesWalk] at h
  | p :: ps =>
    rw [entriesWalk_cons, List.head?_cons] at h
    exact (Option.some.inj h) ▸ rfl

theorem entriesWalk_chain (z : Zlib) (fname : List Nat) (mtime : Nat) :
    ∀ (ps : List (List Nat)) (off : Nat),
      List.Chain' (fun a b => b.off = a.off + a.msize)
        (entriesWalk z fname mtime off ps)
  | [], _ => by simp [entriesWalk]
  | [p], off => by
    rw [entriesWalk_cons]
    simp [entriesWalk]
  | p :: q :: ps, off => by
    rw [entriesWalk_cons, entriesWalk_cons]
    refine List.Chain'.cons rfl ?_
    rw [← entriesWalk_cons]
    exact entriesWalk_chain z fname mtime (q :: ps) (off + mszOf z fname p)

theorem entriesWalk_last (z : Zlib) (fname : List Nat) (mtime : Nat) :
    ∀ (ps : List (List Nat)) (off : Nat) (e : IEntry),
      (entriesWalk z fname mtime off ps).getLast? = some e →
      e.off + e.msize = off + (ps.map (fun p => mszOf z fname p)).sum
  | [], off, e => by simp [entriesWalk]
  | [p], off, e => by
    rw [entriesWalk_cons]
    intro h
    simp [entriesWalk] at h
    subst h
    simp
  | p :: q :: ps, off, e => by
    intro h
    rw [entriesWalk_cons, entriesWalk_cons, List.getLast?_cons_cons,
      ← entriesWalk_cons] at h
    have ih := entriesWalk_last z fname mtime (q :: ps) (off + mszOf z fname p) e h
    rw [ih]
    simp only [List.map_cons, List.sum_cons]
    omega

theorem entriesWalk_isize_sum (z : Zlib) (fname : List Nat) (mtime : Nat) :
    ∀ (ps : List (List Nat)) (off : Nat),
      ((entriesWalk z fname mtime off ps).map
          (fun e => e.isize % 4294967296)).sum % 4294967296
        = ps.flatten.length % 4294967296
  | [], _ => by simp [entriesWalk]
  | p :: ps, off => by
    rw [entriesWalk_cons]
    simp only [List.map_cons, List.sum_cons, List.flatten_cons, List.length_append]
    have ih := entriesWalk_isize_sum z fname mtime ps (off + mszOf z fname p)
    have e0 : p.length % 4294967296 % 4294967296 = p.length % 4294967296 := by omega
    rw [e0, Nat.mod_add_mod, Nat.add_mod, ih, ← Nat.add_mod]

theorem membersFlatten_length (z : Zlib) (fname : List Nat) (mtime : Nat)
    (ps : List (List Nat)) :
    ((ps.map (memberBytesP z fname mtime)).flatten).length
      = (ps.map (fun p => mszOf z fname p)).sum := by
  rw [List.length_flatten, List.map_map]
  congr 1
  exact List.map_congr_left (fun p _ => memberBytesP_length z fname mtime p)

/-! ## Claim C8: index consistency -/

/-- C8: on every output of the engine (any write sequence followed by
`close`), `get_index` succeeds and yields one entry per member with
`offset[0] = 0`, `offset[i+1] = offset[i] + member_size[i]`, the last
`offset + member_size` equal to the on-disk size, the ISIZE values
summing to the input length mod 2^32, and the prior read position
restored. -/
theorem c8_index_consistency (ctx : WCtx) (ds : List (List Nat)) (rawPos : Nat)
    (hB : 1 ≤ ctx.blocksize)
    (hm : ∀ p ∈ closedPayloads ctx.blocksize ds,
      mszOf ctx.z ctx.fname p < 4294967296) :
    ∃ es : List IEntry,
      getIndexAt (mgClose ctx (writeSeq ctx initW ds)).out rawPos
          ((closedPayloads ctx.blocksize ds).length + 1)
        = (some es, rawPos) ∧
      (∀ e, es.head? = some e → e.off = 0) ∧
      List.Chain' (fun a b => b.off = a.off + a.msize) es ∧
      (∀ e, es.getLast? = some e →
        e.off + e.msize = (mgClose ctx (writeSeq ctx initW ds)).out.length) ∧
      (es = [] → (mgClose ctx (writeSeq ctx initW ds)).out = []) ∧
      ((es.map (fun e => e.isize % 4294967296)).sum % 4294967296
        = ds.flatten.length % 4294967296) := by
  have hout := writer_out_closedPayloads ctx ds
  refine ⟨entriesWalk ctx.z ctx.fname ctx.mtime 0 (closedPayloads ctx.blocksize ds),
    ?_, ?_, ?_, ?_, ?_, ?_⟩
  · rw [getIndexAt, hout]
    have hwalk := getIndexLoop_members ctx.z ctx.fname ctx.mtime
      (closedPayloads ctx.blocksize ds) [] []
      ((closedPayloads ctx.blocksize ds).length + 1) (by omega) hm (by simp)
    simp only [List.nil_append, List.length_nil] at hwalk
    rw [hwalk]
  · intro e he
    exact entriesWalk_head ctx.z ctx.fname ctx.mtime _ 0 e he
  · exact entriesWalk_chain ctx.z ctx.fname ctx.mtime _ 0
  · intro e he
    rw [entriesWalk_last ctx.z ctx.fname ctx.mtime _ 0 e he, hout,
      membersFlatten_length]
    omega
  · intro he
    have hlen := entriesWalk_length ctx.z ctx.fname ctx.mtime
      (closedPayloads ctx.blocksize ds) 0
    rw [he] at hlen
    have : closedPayloads ctx.blocksize ds = [] :=
      List.eq_nil_of_length_eq_zero hlen.symm
    rw [hout, this]
    rfl
  · have := entriesWalk_isize_sum ctx.z ctx.fname ctx.mtime
      (closedPayloads ctx.blocksize ds) 0
    rw [this, (closedPayloads_props ctx.blocksize hB ds).1]

/-- Witness for C8: two writes whose members carry a filename. -/
theorem c8_index_consistency_witness :
    1 ≤ (2 : Nat) ∧
      ∃ es : List IEntry,
        getIndexAt (mgClose ⟨idZ, [97], 5, 2, 1⟩
              (writeSeq ⟨idZ, [97], 5, 2, 1⟩ initW [[1, 2, 3], [4]])).out 7
            ((closedPayloads 2 [[1, 2, 3], [4]]).length + 1)
          = (some es, 7) ∧
        (∀ e, es.head? = some e → e.off = 0) ∧
        List.Chain' (fun a b => b.off = a.off + a.msize) es ∧
        (∀ e, es.getLast? = some e →
          e.off + e.msize = (mgClose ⟨idZ, [97], 5, 2, 1⟩
            (writeSeq ⟨idZ, [97], 5, 2, 1⟩ initW [[1, 2, 3], [4]])).out.length) ∧
        (es = [] → (mgClose ⟨idZ, [97], 5, 2, 1⟩
          (writeSeq ⟨idZ, [97], 5, 2, 1⟩ initW [[1, 2, 3], [4]])).out = []) ∧
        ((es.map (fun e => e.isize % 4294967296)).sum % 4294967296
          = ([[1, 2, 3], [4]] : List (List Nat)).flatten.length % 4294967296) :=
  ⟨by decide, c8_index_consistency ⟨idZ, [97], 5, 2, 1⟩ [[1, 2, 3], [4]] 7
    (by decide) (by decide)⟩

/-! ## Claim C2: blockiness -/

theorem closedPayloads_single (B : Nat) (hB : 1 ≤ B) (D : List Nat) :
    closedPayloads B [D]
      = if D.length = 0 then []
        else if D.length < 2 * B then [D]
        else chunksGo B D.length D := by
  simp only [closedPayloads, jobsAccum, jobsOfWrite, List.nil_append]
  by_cases h0 : D.length = 0
  · simp [h0]
  · by_cases h1 : B ≤ D.length
    · by_cases h2 : D.length < 2 * B
      · simp [h0, h1, h2, JobArgs.payload]
      · simp only [if_neg h0, if_pos h1, if_neg h2, jobsAccum]
        rw [chunkJobs_nil_sb]
        simp [JobArgs.payload, List.map_map, Function.comp_def]
    · have h2 : D.length < 2 * B := by omega
      by_cases h3 : B ≤ D.length
      · omega
      · simp [h0, h1, h2, h3, jobsAccum, JobArgs.payload]

/-- C2 (refuting evaluation): writing 3 bytes in one call with
`blocksize = 2` and closing produces a single member (whose ISIZE is 3),
not `ceil(3/2) = 2` members as the claim predicts: the whole write is
submitted as one job whenever `blocksize ≤ len < 2*blocksize`. -/
theorem c2_counterexample :
    ¬ ((getIndexAt (mgCompress idZ 2 1 0 [0, 0, 0]) 0 5).1).map List.length
      = some ((3 + 2 - 1) / 2) := by decide

/-- C2 (amended): for an input of length `L` written in one call with
block size `B` and then closed, the member count is 1 when
`0 < L < 2*B` (the spec's own single-job rule for `blocksize ≤ len <
2*blocksize` wins over `ceil(L/B)`), and `ceil(L/B)` when `L ≥ 2*B`. -/
theorem c2_blockiness_amended (z : Zlib) (B wt mtime : Nat) (D : List Nat)
    (hB : 1 ≤ B) (hD : 0 < D.length)
    (hm : ∀ p ∈ closedPayloads B [D], mszOf z [] p < 4294967296) :
    ((getIndexAt (mgCompress z B wt mtime D) 0
        ((closedPayloads B [D]).length + 1)).1).map List.length
      = some (if D.length < 2 * B then 1 else (D.length + B - 1) / B) := by
  have hout : mgCompress z B wt mtime D
      = ((closedPayloads B [D]).map (memberBytesP z [] mtime)).flatten := by
    rw [mgCompress]
    have := writer_out_closedPayloads ⟨z, [], mtime, B, wt⟩ [D]
    simpa [writeSeq] using this
  rw [getIndexAt, hout]
  have hwalk := getIndexLoop_members z [] mtime (closedPayloads B [D]) [] []
    ((closedPayloads B [D]).length + 1) (by omega) hm (by simp)
  simp only [List.nil_append, List.length_nil] at hwalk
  rw [hwalk]
  show some (entriesWalk z [] mtime 0 (closedPayloads B [D])).length
      = some (if D.length < 2 * B then 1 else (D.length + B - 1) / B)
  congr 1
  rw [entriesWalk_length, closedPayloads_single B hB D]
  by_cases h2 : D.length < 2 * B
  · rw [if_neg (by omega), if_pos h2, if_pos h2]
    rfl
  · rw [if_neg (by omega), if_neg h2, if_neg h2,
      chunksGo_length B hB D.length D (Nat.le_refl _)]

/-- Witness for the amended C2 in both regimes (one member for
`B ≤ L < 2B`; `ceil(L/B)` members for `L ≥ 2B`). -/
theorem c2_blockiness_amended_witness :
    (1 ≤ (2 : Nat) ∧ 0 < ([0, 0, 0] : List Nat).length ∧
      ((getIndexAt (mgCompress idZ 2 1 0 [0, 0, 0]) 0
          ((closedPayloads 2 [[0, 0, 0]]).length + 1)).1).map List.length
        = some (if ([0, 0, 0] : List Nat).length < 2 * 2 then 1
            else (([0, 0, 0] : List Nat).length + 2 - 1) / 2)) ∧
    ((getIndexAt (mgCompress idZ 2 1 0 [0, 1, 2, 3, 4]) 0
        ((closedPayloads 2 [[0, 1, 2, 3, 4]]).length + 1)).1).map List.length
      = some (if ([0, 1, 2, 3, 4] : List Nat).length < 2 * 2 then 1
          else (([0, 1, 2, 3, 4] : List Nat).length + 2 - 1) / 2) :=
  ⟨⟨by decide, by decide,
      c2_blockiness_amended idZ 2 1 0 [0, 0, 0] (by decide) (by decide) (by decide)⟩,
    c2_blockiness_amended idZ 2 1 0 [0, 1, 2, 3, 4] (by decide) (by decide) (by decide)⟩

/-! ## Claim C6 (amended part) -/

/-- C6 (amended): over every sequence of `write` calls followed by
`close`, every member emitted carries a nonempty payload of at most
`3*blocksize - 2` uncompressed bytes — not `blocksize`: the small buffer
may hold up to `blocksize - 1` bytes and is flushed only at
`≥ blocksize` (up to `2*blocksize - 2` bytes in one job), or prepended
to a single-job write of up to `2*blocksize - 1` bytes. -/
theorem c6_job_bound_amended (ctx : WCtx) (ds : List (List Nat))
    (hB : 1 ≤ ctx.blocksize) :
    (mgClose ctx (writeSeq ctx initW ds)).out
        = ((closedPayloads ctx.blocksize ds).map
            (memberBytesP ctx.z ctx.fname ctx.mtime)).flatten ∧
      ∀ p ∈ closedPayloads ctx.blocksize ds,
        p ≠ [] ∧ p.length ≤ 3 * ctx.blocksize - 2 :=
  ⟨writer_out_closedPayloads ctx ds, (closedPayloads_props ctx.blocksize hB ds).2⟩

/-- Witness for the amended C6 at `blocksize = 3` and the counterexample
write sequence. -/
theorem c6_job_bound_amended_witness :
    1 ≤ (3 : Nat) ∧
      ((mgClose ⟨idZ, [], 0, 3, 1⟩ (writeSeq ⟨idZ, [], 0, 3, 1⟩ initW [[0, 1], [2, 3]])).out
          = ((closedPayloads 3 [[0, 1], [2, 3]]).map (memberBytesP idZ [] 0)).flatten ∧
        ∀ p ∈ closedPayloads 3 [[0, 1], [2, 3]], p ≠ [] ∧ p.length ≤ 3 * 3 - 2) :=
  ⟨by decide, c6_job_bound_amended ⟨idZ, [], 0, 3, 1⟩ [[0, 1], [2, 3]] (by decide)⟩

/-! ## Claim C1 -/

/-- C1 (amended): `decompress` inverts `compress` on every input,
provided the codec's CRC step stays within 32 bits, the decompressor
inverts `deflate` on each emitted block under the recorded ISIZE output
cap, and every emitted block's length and member size fit the 32-bit
trailer/header fields — which the code does not guarantee for blocks of
2^32 bytes or more (its own `FIXME: it may not work when
the raw data size is larger than 4GB`). -/
theorem c1_round_trip_amended (z : Zlib) (B wt rt mtime : Nat) (D : List Nat)
    (hB : 1 ≤ B) (hrt : 1 ≤ rt)
    (hzde : z.dEofQ z.dInit = false)
    (hcrc : ∀ s b, z.crcStep s b < 4294967296)
    (hinfl : ∀ p ∈ closedPayloads B [D],
      z.inflateCap (z.deflate p) p.length = (p, []))
    (hsz : ∀ p ∈ closedPayloads B [D],
      p.length < 4294967296 ∧ mszOf z [] p < 4294967296) :
    mgDecompress z rt (D.length + 2) (mgCompress z B wt mtime D) = .ok D := by
  have hprops := closedPayloads_props B hB [D]
  have hflat : (closedPayloads B [D]).flatten = D := by
    rw [hprops.1]
    simp
  have hout : mgCompress z B wt mtime D
      = ((closedPayloads B [D]).map (memberBytesP z [] mtime)).flatten := by
    have hw := writer_out_closedPayloads ⟨z, [], mtime, B, wt⟩ [D]
    simpa [mgCompress, writeSeq] using hw
  have hgood : ∀ p ∈ ([] : List (List Nat)) ++ closedPayloads B [D],
      GoodPayload z p := by
    intro p hp
    simp only [List.nil_append] at hp
    exact ⟨(hprops.2 p hp).1, (hsz p hp).1,
      crc32_lt z hcrc p 0 (by norm_num), (hsz p hp).2, hinfl p hp⟩
  have hcount : (closedPayloads B [D]).length ≤ D.length := by
    have h1 := length_le_flatten_length (closedPayloads B [D])
      (fun x hx => (hprops.2 x hx).1)
    rw [hflat] at h1
    exact h1
  have hconf : RConf z rt mtime [] (closedPayloads B [D])
      (rstate0 z rt
        (((closedPayloads B [D]).map (memberBytesP z [] mtime)).flatten)) := by
    refine ⟨rfl, rfl, by simp [rstate0], rfl, rfl, by norm_num [rstate0], rfl, hzde, ?_⟩
    intro h
    simp [rstate0] at h
  obtain ⟨st2, hrun⟩ := readAllGo_engine z rt mtime hrt (D.length + 2) []
    (closedPayloads B [D]) _ [] (D.length + 2) (by omega) (by simp; omega)
    hconf hgood
  rw [hout]
  simp only [mgDecompress]
  rw [hrun]
  simp [hflat, Except.map]

/-- Concrete round trip through the full write/close/read pipeline. -/
theorem c1_round_trip_amended_witness :
    (1 ≤ (1 : Nat)) ∧
      mgDecompress idZ 1 5 (mgCompress idZ 1 1 0 [1, 2, 3]) = .ok [1, 2, 3] :=
  ⟨by decide,
    c1_round_trip_amended idZ 1 1 1 0 [1, 2, 3] (by decide) (by decide) rfl
      (fun s b => Nat.mod_lt _ (by norm_num)) (by decide) (by decide)⟩

theorem writeSeq_single (ctx : WCtx) (st : WState) (d : List Nat) :
    writeSeq ctx st [d] = mgWrite ctx st d := rfl

theorem mgCompress_eq (z : Zlib) (B t mtime : Nat) (data : List Nat) :
    mgCompress z B t mtime data
      = (mgClose ⟨z, [], mtime, B, t⟩
          (mgWrite ⟨z, [], mtime, B, t⟩ initW data)).out := rfl

theorem bigZeros_length : bigZeros.length = 4294967296 :=
  List.length_replicate 4294967296 0

/-- C1 (counterexample scenario): with a codec behaving like zlib on
2^32 zero bytes (one placeholder byte of compressed output, CRC fold
returning its seed), a single 2^32-byte block is written with
`ISIZE = 2^32 % 2^32 = 0`, and reading it back fails the drain's length
validation (`rsize` is the truncated ISIZE) instead of returning the
data. -/
theorem c1_counterexample :
    mgDecompress ceZ 1 8 (mgCompress ceZ 4294967296 1 0 bigZeros)
      ≠ .ok bigZeros := by
  have hcp : closedPayloads 4294967296 [bigZeros] = [bigZeros] := by
    rw [closedPayloads_single _ (by norm_num), bigZeros_length,
      if_neg (by norm_num), if_pos (by norm_num)]
  have hout : mgCompress ceZ 4294967296 1 0 bigZeros
      = memberBytesP ceZ [] 0 bigZeros := by
    have hw := writer_out_closedPayloads ⟨ceZ, [], 0, 4294967296, 1⟩ [bigZeros]
    have hb : (⟨ceZ, [], 0, 4294967296, 1⟩ : WCtx).blocksize = 4294967296 := rfl
    have hz : (⟨ceZ, [], 0, 4294967296, 1⟩ : WCtx).z = ceZ := rfl
    have hf : (⟨ceZ, [], 0, 4294967296, 1⟩ : WCtx).fname = [] := rfl
    have hm : (⟨ceZ, [], 0, 4294967296, 1⟩ : WCtx).mtime = 0 := rfl
    rw [hb, hz, hf, hm, writeSeq_single, hcp, List.map_cons, List.map_nil,
      List.flatten_cons, List.flatten_nil, List.append_nil] at hw
    rw [mgCompress_eq]
    exact hw
  have hmem : memberBytesP ceZ [] 0 bigZeros = rawMember 0 29 [0] 0 0 := by
    rw [memberBytesP_rawMember, bigZeros_length, Nat.mod_self, crc32_ceZ]
    norm_num [mszOf, memberSizeOf, ceZ]
  have hinfl : ceZ.inflateCap [0] (0 % 4294967296) = (bigZeros, []) := rfl
  have hdec : decompressFunc ceZ [0] (0 % 4294967296) (0 % 4294967296)
      = ⟨bigZeros, 0, 0, 0⟩ := by
    rw [decompressFunc, hinfl]
    simp only [crc32_ceZ]
    rw [if_neg (by simp)]
  have hrl : readLoop ceZ 8 (rstate0 ceZ 1 (rawMember 0 29 [0] 0 0)) sysMaxsize
      = .error .sizeMismatch := by
    have hstep := readLoop_dispatch ceZ 7 sysMaxsize
      (rstate0 ceZ 1 (rawMember 0 29 [0] 0 0)) 0 29 [0] 0 0 []
      (by simp [rstate0]) (by norm_num) rfl rfl rfl rfl (by simp [rstate0])
    refine hstep.trans (readLoop_drain_err ceZ 6 sysMaxsize _
      ⟨bigZeros, 0, 0, 0⟩ [] .sizeMismatch rfl rfl
      ?_ rfl rfl (by norm_num [rstate0, sysMaxsize])
      (checkDrained_err_len _ (by
        show bigZeros.length ≠ 0
        rw [bigZeros_length]
        norm_num)))
    show [decompressFunc ceZ [0] (0 % 4294967296) (0 % 4294967296)]
      = [⟨bigZeros, 0, 0, 0⟩]
    rw [hdec]
  rw [hout, hmem]
  simp only [mgDecompress]
  rw [readAllGo_err ceZ 8 8 _ [] .sizeMismatch (by norm_num) hrl]
  simp [Except.map]

end Mgzip
